import Mathlib

/-!
Verification of the Skyway migration engine core against its specification.

The definitions below are shallow embeddings of the TypeScript sources of the
repository (packages/core/src/executor/sql-splitter.ts,
packages/core/src/executor/placeholder.ts,
packages/core/src/migration/checksum.ts, the migration parser and resolver,
the history-table manager, and the orchestrator's execution loops).
Scripts and filenames are modelled as `List Char`; machine integers are
modelled as `Nat`/`Int` with explicit 32-bit masking where the source relies
on 32-bit arithmetic.
-/

namespace Skyway

/-- Character test for the JavaScript regex class `\s` as used by the source
(space, tab, carriage return, line feed, vertical tab, form feed; the
Unicode space characters that `\s` also accepts do not occur in the
inputs treated here). -/
def isSpaceChar (c : Char) : Bool :=
  c = ' ' || c = '\t' || c = '\r' || c = '\n' || c = '\x0b' || c = '\x0c'

/-- `parseInt(ds, 10)` on a non-empty digit string. -/
def digitsToNat (ds : List Char) : Nat :=
  ds.foldl (fun acc c => acc * 10 + (c.toNat - '0'.toNat)) 0

/-!
## Batch splitter — packages/core/src/executor/sql-splitter.ts

`GO_PATTERN = /^\s*GO\s*(\d+)?\s*$/i` : optional whitespace, `GO`
(case-insensitive), optional whitespace, an optional run of digits
(the captured repeat count), optional whitespace, end of line.
All quantifiers here are over disjoint character classes, so the regex is
equivalent to the deterministic scanner below.
-/

/-- Core of the GO-pattern match, applied after the leading `\s*` has been
consumed: expects `G`/`g` then `O`/`o`, then optional whitespace, an optional
digit run (the captured repeat count), optional whitespace, end of line. -/
def parseGoCore : List Char → Option Nat
  | g :: o :: rest =>
    if (g = 'G' || g = 'g') && (o = 'O' || o = 'o') then
      let afterGo := rest.dropWhile isSpaceChar
      let ds := afterGo.takeWhile Char.isDigit
      let tail := (afterGo.dropWhile Char.isDigit).dropWhile isSpaceChar
      if tail = [] then some (if ds = [] then 1 else digitsToNat ds) else none
    else none
  | _ => none

/-- `line.match(GO_PATTERN)` — returns the repeat count (1 when the optional
digit group is absent, mirroring `goMatch[1] ? parseInt(goMatch[1], 10) : 1`),
or `none` when the line is not a GO separator line. -/
def parseGoLine (line : List Char) : Option Nat :=
  parseGoCore (line.dropWhile isSpaceChar)

/-- A single SQL batch extracted from a larger script
(interface `SQLBatch` of sql-splitter.ts). -/
structure SQLBatch where
  SQL : List Char
  RepeatCount : Nat
  StartLine : Nat
deriving DecidableEq, Repr

/-- `script.split('\n')` — JavaScript split on the newline character
(returns `[""]` on the empty string). -/
def splitOnNL : List Char → List (List Char)
  | [] => [[]]
  | '\n' :: rest => [] :: splitOnNL rest
  | c :: rest =>
    match splitOnNL rest with
    | [] => [[c]]
    | l :: ls => (c :: l) :: ls

/-- `lines.join('\n')`. -/
def joinNL : List (List Char) → List Char
  | [] => []
  | [l] => l
  | l :: ls => l ++ '\n' :: joinNL ls

/-- `s.trim()` — strip leading and trailing whitespace. -/
def trimChars (l : List Char) : List Char :=
  ((l.dropWhile isSpaceChar).reverse.dropWhile isSpaceChar).reverse

/-- The accumulation loop of `SplitOnGO`: `i` is the 0-based index of the
current line, `cur` the lines of the current batch, `start` the recorded
`batchStartLine`.  A GO line flushes the current batch (discarded when its
trimmed body is empty) and resets `batchStartLine` to `i + 2`; the final
batch is flushed with `RepeatCount = 1`. -/
def splitOnGOAux : List (List Char) → Nat → List (List Char) → Nat → List SQLBatch
  | [], _, cur, start =>
    let s := trimChars (joinNL cur)
    if s = [] then [] else [⟨s, 1, start⟩]
  | line :: rest, i, cur, start =>
    match parseGoLine line with
    | some rc =>
      let s := trimChars (joinNL cur)
      (if s = [] then [] else [⟨s, rc, start⟩]) ++ splitOnGOAux rest (i + 1) [] (i + 2)
    | none => splitOnGOAux rest (i + 1) (cur ++ [line]) start

/-- `SplitOnGO(script)` of sql-splitter.ts. -/
def SplitOnGO (script : List Char) : List SQLBatch :=
  splitOnGOAux (splitOnNL script) 0 [] 1

/-- The batch-separator grammar exactly as the specification's claim states
it: `^\s*GO(\s+\d+)?\s*$` case-insensitively — when a repeat count is
present, at least one whitespace character is REQUIRED between `GO` and the
digits.  This definition follows the claim's words and is compared against
`parseGoLine`, which embeds the source's pattern. -/
def specGoLine (line : List Char) : Bool :=
  match line.dropWhile isSpaceChar with
  | g :: o :: rest =>
    ((g = 'G' || g = 'g') && (o = 'O' || o = 'o')) &&
      (rest.all isSpaceChar ||
        (match rest with
         | c :: _ =>
           isSpaceChar c &&
             (let afterWs := rest.dropWhile isSpaceChar
              let ds := afterWs.takeWhile Char.isDigit
              (!ds.isEmpty) && (afterWs.dropWhile Char.isDigit).all isSpaceChar)
         | [] => false))
  | _ => false

/-- The shape of a line that the source treats as a batch separator:
optional whitespace, `G`/`g`, `O`/`o`, optional whitespace, an optional run
of decimal digits, optional whitespace. -/
def GoLineShape (line : List Char) : Prop :=
  ∃ w1 g o w2 ds w3, line = w1 ++ g :: o :: (w2 ++ ds ++ w3) ∧
    w1.all isSpaceChar = true ∧ (g = 'G' ∨ g = 'g') ∧ (o = 'O' ∨ o = 'o') ∧
    w2.all isSpaceChar = true ∧ ds.all Char.isDigit = true ∧
    w3.all isSpaceChar = true

theorem all_of_dropWhile_eq_nil {p : Char → Bool} :
    ∀ {l : List Char}, l.dropWhile p = [] → l.all p = true := by
  intro l
  induction l with
  | nil => intro _; rfl
  | cons c cs ih =>
    intro h
    by_cases hc : p c
    · rw [List.dropWhile_cons_of_pos hc] at h
      simp [hc, ih h]
    · rw [List.dropWhile_cons_of_neg hc] at h
      exact absurd h (by simp)

theorem dropWhile_eq_nil_of_all {p : Char → Bool} :
    ∀ {l : List Char}, l.all p = true → l.dropWhile p = [] := by
  intro l
  induction l with
  | nil => intro _; rfl
  | cons c cs ih =>
    intro h
    simp only [List.all_cons, Bool.and_eq_true] at h
    rw [List.dropWhile_cons_of_pos h.1]
    exact ih h.2

theorem dropWhile_append_of_all {p : Char → Bool} {l r : List Char}
    (h : l.all p = true) : (l ++ r).dropWhile p = r.dropWhile p := by
  induction l with
  | nil => rfl
  | cons c cs ih =>
    simp only [List.all_cons, Bool.and_eq_true] at h
    rw [List.cons_append, List.dropWhile_cons_of_pos h.1]
    exact ih h.2

theorem takeWhile_append_of_all {p : Char → Bool} {l r : List Char}
    (h : l.all p = true) : (l ++ r).takeWhile p = l ++ r.takeWhile p := by
  induction l with
  | nil => rfl
  | cons c cs ih =>
    simp only [List.all_cons, Bool.and_eq_true] at h
    rw [List.cons_append, List.takeWhile_cons_of_pos h.1, ih h.2]
    rfl

theorem all_takeWhile (p : Char → Bool) (l : List Char) :
    (l.takeWhile p).all p = true := by
  induction l with
  | nil => rfl
  | cons c cs ih =>
    by_cases hc : p c
    · rw [List.takeWhile_cons_of_pos hc]; simp [hc, ih]
    · rw [List.takeWhile_cons_of_neg hc]; rfl

theorem space_not_digit {c : Char} (h : isSpaceChar c = true) :
    c.isDigit = false := by
  simp only [isSpaceChar, Bool.or_eq_true, decide_eq_true_eq] at h
  rcases h with ((((h | h) | h) | h) | h) | h <;> subst h <;> decide

theorem digit_not_space {c : Char} (h : c.isDigit = true) :
    isSpaceChar c = false := by
  cases hs : isSpaceChar c with
  | false => rfl
  | true => rw [space_not_digit hs] at h; exact absurd h (by simp)

/-- `parseGoLine` succeeds exactly on lines of the shape
whitespace, `G`/`g`, `O`/`o`, whitespace, digits, whitespace
(each run possibly empty except the two letters). -/
theorem parseGoLine_isSome_iff (line : List Char) :
    (parseGoLine line).isSome = true ↔ GoLineShape line := by
  constructor
  · intro h
    unfold parseGoLine at h
    rcases hd : line.dropWhile isSpaceChar with _ | ⟨g, _ | ⟨o, rest⟩⟩
    · rw [hd] at h; exact absurd h (by simp [parseGoCore])
    · rw [hd] at h; exact absurd h (by simp [parseGoCore])
    rw [hd] at h
    simp only [parseGoCore] at h
    by_cases hgo : ((g = 'G' || g = 'g') && (o = 'O' || o = 'o')) = true
    · rw [if_pos hgo] at h
      simp only [Bool.and_eq_true, Bool.or_eq_true, decide_eq_true_eq] at hgo
      by_cases htail :
          ((rest.dropWhile isSpaceChar).dropWhile Char.isDigit).dropWhile
            isSpaceChar = []
      · refine ⟨line.takeWhile isSpaceChar, g, o, rest.takeWhile isSpaceChar,
          (rest.dropWhile isSpaceChar).takeWhile Char.isDigit,
          (rest.dropWhile isSpaceChar).dropWhile Char.isDigit,
          ?_, all_takeWhile _ _, hgo.1, hgo.2, all_takeWhile _ _,
          all_takeWhile _ _, all_of_dropWhile_eq_nil htail⟩
        rw [List.append_assoc, List.takeWhile_append_dropWhile,
          List.takeWhile_append_dropWhile, ← hd,
          List.takeWhile_append_dropWhile]
      · rw [if_neg htail] at h
        exact absurd h (by simp)
    · rw [if_neg hgo] at h
      exact absurd h (by simp)
  · rintro ⟨w1, g, o, w2, ds, w3, hline, hw1, hg, ho, hw2, hds, hw3⟩
    subst hline
    have hgs : isSpaceChar g = false := by
      rcases hg with h | h <;> subst h <;> decide
    unfold parseGoLine
    rw [dropWhile_append_of_all hw1, List.dropWhile_cons_of_neg (by simp [hgs])]
    have hgo : ((g = 'G' || g = 'g') && (o = 'O' || o = 'o')) = true := by
      rcases hg with h | h <;> rcases ho with h2 | h2 <;> subst h <;> subst h2 <;>
        decide
    simp only [parseGoCore]
    rw [if_pos hgo]
    cases ds with
    | nil =>
      have hafter : ((w2 ++ [] ++ w3).dropWhile isSpaceChar) = [] := by
        rw [List.append_nil, dropWhile_append_of_all hw2]
        exact dropWhile_eq_nil_of_all hw3
      simp only [hafter]
      simp
    | cons d ds0 =>
      have hd : d.isDigit = true := by
        simp only [List.all_cons, Bool.and_eq_true] at hds
        exact hds.1
      have hafter : ((w2 ++ (d :: ds0) ++ w3).dropWhile isSpaceChar) =
          (d :: ds0) ++ w3 := by
        rw [List.append_assoc, dropWhile_append_of_all hw2]
        exact List.dropWhile_cons_of_neg (by simp [digit_not_space hd])
      have htake : (((d :: ds0) ++ w3).takeWhile Char.isDigit) = d :: ds0 := by
        rw [takeWhile_append_of_all hds]
        cases w3 with
        | nil => simp
        | cons c cs =>
          simp only [List.all_cons, Bool.and_eq_true] at hw3
          rw [List.takeWhile_cons_of_neg (by simp [space_not_digit hw3.1])]
          simp
      have hdrop : (((d :: ds0) ++ w3).dropWhile Char.isDigit) = w3 := by
        rw [dropWhile_append_of_all hds]
        cases w3 with
        | nil => rfl
        | cons c cs =>
          simp only [List.all_cons, Bool.and_eq_true] at hw3
          exact List.dropWhile_cons_of_neg (by simp [space_not_digit hw3.1])
      simp only [hafter, htake, hdrop, dropWhile_eq_nil_of_all hw3]
      simp

/-- C6 counterexample: the claim states that a line is a batch separator iff
it matches `^\s*GO(\s+\d+)?\s*$` (whitespace REQUIRED before a repeat count),
so that a line whose trimmed content is `GO5` is not a separator.  The
source's pattern `^\s*GO\s*(\d+)?\s*$` makes the whitespace optional:
`SplitOnGO` treats the line `GO5` as a separator with repeat count 5, while
the claim's grammar rejects that line. -/
theorem C6_counterexample :
    (parseGoLine ['G', 'O', '5']).isSome = true ∧
      specGoLine ['G', 'O', '5'] = false ∧
      SplitOnGO ("SELECT 1;\nGO5").data = [⟨("SELECT 1;").data, 5, 1⟩] := by
  refine ⟨by decide, by decide, by decide⟩

/-- C6 (amended): `SplitOnGO` treats a line as a batch separator iff, after
optional leading whitespace, it consists of `GO` (case-insensitively)
followed by optional whitespace, an optional decimal repeat count, and
optional trailing whitespace — the whitespace between `GO` and the digits is
NOT required, so `GO5` is a separator with repeat count 5, while `GO`
embedded in a longer token (such as `GOTO`) is still not a separator. -/
theorem C6_separator_grammar :
    (∀ line : List Char, (parseGoLine line).isSome = true ↔ GoLineShape line) ∧
      parseGoLine ("GO5").data = some 5 ∧
      parseGoLine ("GOTO").data = none ∧
      parseGoLine ("SELECT GO").data = none := by
  refine ⟨parseGoLine_isSome_iff, by decide, by decide, by decide⟩

example : parseGoLine ['G', 'O'] = some 1 := by decide
example : parseGoLine [' ', 'g', 'O', ' ', '1', '2', ' '] = some 12 := by decide
example : parseGoLine ['G', 'O', 'T', 'O'] = none := by decide
example : parseGoLine ['G', 'O', '5'] = some 5 := by decide
example : specGoLine ['G', 'O', '5'] = false := by decide
example :
    SplitOnGO ("SELECT 1;\nGO\nSELECT 2;\nGO 3").data =
      [⟨("SELECT 1;").data, 1, 1⟩, ⟨("SELECT 2;").data, 3, 3⟩] := by decide

/-!
## Placeholder substitution — packages/core/src/executor/placeholder.ts

The source replaces `$\x7b name \x7d` tokens via a single global-regex pass
(`/\$\x7b([^\x7d]+)\x7d/g`) with a callback that returns the mapped value for
a known name and the matched text itself for an unknown name.
-/

/-- Runtime context for resolving built-in placeholders
(interface `PlaceholderContext`). -/
structure PlaceholderContext where
  DefaultSchema : String
  Timestamp : String
  Database : Option String := none
  User : Option String := none
  Filename : Option String := none
  Table : Option String := none
deriving DecidableEq, Repr

/-- A conditionally registered built-in: `if (context.X) map.set(key, X)` —
JavaScript truthiness makes both an absent field and the empty string skip
the registration. -/
def optEntry (key : String) : Option String → List (String × String)
  | some v => if v = "" then [] else [(key, v)]
  | none => []

/-- `buildPlaceholderMap` — the `Map.set` insertion sequence: the two
always-registered built-ins, the four conditionally-registered built-ins,
then the user-defined placeholders (later insertions override earlier
ones). -/
def buildPlaceholderMap (userPlaceholders : List (String × String))
    (context : PlaceholderContext) : List (String × String) :=
  [("flyway:defaultSchema", context.DefaultSchema),
    ("flyway:timestamp", context.Timestamp)] ++
  optEntry "flyway:database" context.Database ++
  optEntry "flyway:user" context.User ++
  optEntry "flyway:filename" context.Filename ++
  optEntry "flyway:table" context.Table ++
  userPlaceholders

/-- `Map.get` over the insertion sequence: the last binding of a key wins
(later `Map.set` calls overwrite earlier ones). -/
def mapGet (m : List (String × String)) (k : String) : Option String :=
  (m.reverse.find? (fun e => e.1 = k)).map (fun e => e.2)

/-- Scan the regex fragment `([^\x7d]+)\x7d` at the current position: the
characters before the first closing brace, which must exist and must be
preceded by at least one character.  Returns the name and the text after the
closing brace. -/
def scanNameAux : List Char → Option (List Char × List Char)
  | [] => none
  | c :: cs =>
    if c = '}' then some ([], cs)
    else (scanNameAux cs).map (fun p => (c :: p.1, p.2))

/-- The name capture of the placeholder pattern (`none` when there is no
closing brace or the name would be empty). -/
def scanName (l : List Char) : Option (List Char × List Char) :=
  (scanNameAux l).bind (fun p => if p.1 = [] then none else some p)

theorem scanNameAux_length :
    ∀ {l n r}, scanNameAux l = some (n, r) → r.length < l.length := by
  intro l
  induction l with
  | nil => intro n r h; exact absurd h (by simp [scanNameAux])
  | cons c cs ih =>
    intro n r h
    by_cases hc : c = '}'
    · simp only [scanNameAux, if_pos hc, Option.some.injEq, Prod.mk.injEq] at h
      rw [← h.2]
      simp
    · simp only [scanNameAux, if_neg hc, Option.map_eq_some'] at h
      obtain ⟨⟨n0, r0⟩, hp, he⟩ := h
      have := ih hp
      simp only [Prod.mk.injEq] at he
      rw [← he.2]
      exact Nat.lt_trans this (by simp)

theorem scanName_length {l n r} (h : scanName l = some (n, r)) :
    r.length < l.length := by
  unfold scanName at h
  rcases ha : scanNameAux l with _ | ⟨n0, r0⟩
  · rw [ha] at h; exact absurd h (by simp)
  · rw [ha] at h
    simp only [Option.some_bind] at h
    by_cases hn : n0 = []
    · rw [if_pos hn] at h; exact absurd h (by simp)
    · rw [if_neg hn] at h
      simp only [Option.some.injEq, Prod.mk.injEq] at h
      rw [← h.2]
      exact scanNameAux_length ha

theorem scanNameAux_decomp :
    ∀ {l n r}, scanNameAux l = some (n, r) → l = n ++ '}' :: r := by
  intro l
  induction l with
  | nil => intro n r h; exact absurd h (by simp [scanNameAux])
  | cons c cs ih =>
    intro n r h
    by_cases hc : c = '}'
    · simp only [scanNameAux, if_pos hc, Option.some.injEq, Prod.mk.injEq] at h
      rw [← h.1, ← h.2, hc]
      rfl
    · simp only [scanNameAux, if_neg hc, Option.map_eq_some'] at h
      obtain ⟨⟨n0, r0⟩, hp, he⟩ := h
      simp only [Prod.mk.injEq] at he
      rw [← he.1, ← he.2, List.cons_append]
      exact congrArg (c :: ·) (ih hp)

theorem scanName_decomp {l n r} (h : scanName l = some (n, r)) :
    l = n ++ '}' :: r := by
  unfold scanName at h
  rcases ha : scanNameAux l with _ | ⟨n0, r0⟩
  · rw [ha] at h; exact absurd h (by simp)
  · rw [ha] at h
    simp only [Option.some_bind] at h
    by_cases hn : n0 = []
    · rw [if_pos hn] at h; exact absurd h (by simp)
    · rw [if_neg hn] at h
      simp only [Option.some.injEq, Prod.mk.injEq] at h
      rw [← h.1, ← h.2]
      exact scanNameAux_decomp ha

/-- The single left-to-right replacement pass of the global regex: at
`$\x7b`, capture the name up to the first `\x7d`; replace a known name with
its mapped value (inserted literally, never rescanned), copy an unknown
token verbatim, and continue after the token; when the pattern does not
match, the engine advances one character.  The `fuel` argument only drives
the recursion: every step consumes at least one character, so the wrapper's
`fuel = l.length` always suffices and the out-of-fuel branch is never
reached from `substAux`. -/
def substAuxF (lookup : String → Option String) : Nat → List Char → List Char
  | _, [] => []
  | 0, l => l
  | fuel + 1, c :: rest =>
    if c = '$' ∧ rest.head? = some '{' then
      match scanName rest.tail with
      | some (name, rest2) =>
        match lookup (String.mk name) with
        | some v => v.data ++ substAuxF lookup fuel rest2
        | none => c :: '{' :: (name ++ '}' :: substAuxF lookup fuel rest2)
      | none => c :: substAuxF lookup fuel rest
    else c :: substAuxF lookup fuel rest

/-- The replacement pass at fuel `l.length` (always sufficient). -/
def substAux (lookup : String → Option String) (l : List Char) : List Char :=
  substAuxF lookup l.length l

/-- `SubstitutePlaceholders(sql, placeholders, context)` of placeholder.ts. -/
def SubstitutePlaceholders (sql : List Char)
    (placeholders : List (String × String))
    (context : PlaceholderContext) : List Char :=
  substAux (mapGet (buildPlaceholderMap placeholders context)) sql

/-- The names of the placeholder tokens that the replacement pass matches,
in order of appearance, with the same fuel discipline as `substAuxF`. -/
def placeholderTokensF : Nat → List Char → List String
  | _, [] => []
  | 0, _ => []
  | fuel + 1, c :: rest =>
    if c = '$' ∧ rest.head? = some '{' then
      match scanName rest.tail with
      | some (name, rest2) => String.mk name :: placeholderTokensF fuel rest2
      | none => placeholderTokensF fuel rest
    else placeholderTokensF fuel rest

/-- The names of the placeholder tokens of `l`, in order of appearance. -/
def placeholderTokens (l : List Char) : List String :=
  placeholderTokensF l.length l

theorem substAuxF_id (lookup : String → Option String) :
    ∀ (fuel : Nat) (l : List Char),
      (∀ n ∈ placeholderTokensF fuel l, lookup n = none) →
      substAuxF lookup fuel l = l := by
  intro fuel
  induction fuel with
  | zero =>
    intro l _
    cases l <;> rfl
  | succ fuel ih =>
    intro l h
    cases l with
    | nil => rfl
    | cons c rest =>
      by_cases hc : c = '$' ∧ rest.head? = some '{'
      · rcases hs : scanName rest.tail with _ | ⟨name, rest2⟩
        · simp only [substAuxF, placeholderTokensF, if_pos hc, hs] at h ⊢
          rw [ih rest h]
        · simp only [substAuxF, placeholderTokensF, if_pos hc, hs,
            List.mem_cons] at h ⊢
          have hname : lookup (String.mk name) = none := h _ (Or.inl rfl)
          have hrest2 := ih rest2 (fun n hn => h n (Or.inr hn))
          rw [hname, hrest2]
          obtain ⟨hdollar, hbrace⟩ := hc
          subst hdollar
          have hrest : rest = '{' :: rest.tail := by
            cases rest with
            | nil => exact absurd hbrace (by simp)
            | cons x xs =>
              simp only [List.head?_cons, Option.some.injEq] at hbrace
              rw [hbrace]
              rfl
          rw [hrest, scanName_decomp hs]
      · simp only [substAuxF, placeholderTokensF, if_neg hc] at h ⊢
        rw [ih rest h]

/-- C7: when no placeholder token of the script has a name that is a
registered built-in with a resolved value or a key of the user placeholder
map, `SubstitutePlaceholders` returns the input unchanged — every
unrecognized token is copied through verbatim. -/
theorem C7_unknown_placeholders_verbatim (sql : List Char)
    (placeholders : List (String × String)) (context : PlaceholderContext)
    (h : ∀ n ∈ placeholderTokens sql,
      mapGet (buildPlaceholderMap placeholders context) n = none) :
    SubstitutePlaceholders sql placeholders context = sql :=
  substAuxF_id _ sql.length sql h

/-- Witness for C7 at the spec's own example: an unknown token in a script
with an empty user map and a context registering only the two always-present
built-ins. -/
theorem C7_witness :
    (∀ n ∈ placeholderTokens ("SELECT $\x7bunknown\x7d FROM T").data,
        mapGet (buildPlaceholderMap []
          ⟨"__mj", "2026-01-30T00:00:00Z", none, none, none, none⟩) n = none) ∧
      SubstitutePlaceholders ("SELECT $\x7bunknown\x7d FROM T").data []
          ⟨"__mj", "2026-01-30T00:00:00Z", none, none, none, none⟩ =
        ("SELECT $\x7bunknown\x7d FROM T").data :=
  ⟨by decide, C7_unknown_placeholders_verbatim _ _ _ (by decide)⟩

example :
    SubstitutePlaceholders ("USE [$\x7bflyway:database\x7d];").data []
        ⟨"__mj", "t", some "TestDB", none, none, none⟩ =
      ("USE [TestDB];").data := by decide

example :
    SubstitutePlaceholders ("[$\x7bflyway:defaultSchema\x7d] $\x7bmissing\x7d").data
        [] ⟨"__mj", "t", none, none, none, none⟩ =
      ("[__mj] $\x7bmissing\x7d").data := by decide

/-!
## Checksum — packages/core/src/migration/checksum.ts

`ComputeChecksum` strips a leading BOM, splits the content on
`/\r\n|\r|\n/` (so the line terminators are removed), and folds
`crc = CRC32.buf(Buffer.from(line, 'utf-8'), crc)` over the lines starting
from 0, returning the signed 32-bit register.
-/

/-- One step of the CRC-32 table generation: shift right, conditionally XOR
with the reversed IEEE 802.3 polynomial 0xEDB88320. -/
def crcTableStep (c : Nat) : Nat :=
  if c % 2 = 1 then 0xEDB88320 ^^^ (c / 2) else c / 2

/-- Entry `n` of the CRC-32 table used by the crc-32 library. -/
def crcTable (n : Nat) : Nat :=
  Nat.iterate crcTableStep 8 n

/-- One byte update of the CRC register:
`c = (c >>> 8) ^ table[(c ^ byte) & 0xFF]`. -/
def crcByte (c b : Nat) : Nat :=
  (c / 256) ^^^ crcTable ((c ^^^ b) % 256)

/-- `CRC32.buf(bytes, seed)` of the crc-32 library: XOR the 32-bit seed
pattern with all ones, fold the byte update, XOR with all ones again.  The
source threads the signed register between calls; since the library
immediately XORs the seed in 32-bit arithmetic, only the 32-bit pattern
matters, and that pattern is what is threaded here. -/
def crc32buf (seed : Nat) (bytes : List Nat) : Nat :=
  (bytes.foldl crcByte (seed ^^^ 0xFFFFFFFF)) ^^^ 0xFFFFFFFF

/-- The UTF-8 encoding of one character (`Buffer.from(s, 'utf-8')`). -/
def utf8Char (c : Char) : List Nat :=
  let n := c.toNat
  if n < 0x80 then [n]
  else if n < 0x800 then [0xC0 + n / 64, 0x80 + n % 64]
  else if n < 0x10000 then
    [0xE0 + n / 4096, 0x80 + (n / 64) % 64, 0x80 + n % 64]
  else
    [0xF0 + n / 262144, 0x80 + (n / 4096) % 64, 0x80 + (n / 64) % 64,
      0x80 + n % 64]

/-- The UTF-8 byte sequence of a string. -/
def utf8Bytes (l : List Char) : List Nat :=
  (l.map utf8Char).flatten

/-- `content.split(/\r\n|\r|\n/)` — the alternation prefers `\r\n`, so a
carriage return immediately followed by a line feed consumes both
characters; every line terminator is removed from the output.  For an
ordinary character the result of the recursive split never is `[]`
(`splitLines_ne_nil`), so prepending to its first line via
`headD []`/`tail` is exactly the JavaScript behavior. -/
def splitLines : List Char → List (List Char)
  | [] => [[]]
  | '\r' :: '\n' :: rest => [] :: splitLines rest
  | '\r' :: rest => [] :: splitLines rest
  | '\n' :: rest => [] :: splitLines rest
  | c :: rest => (c :: (splitLines rest).headD []) :: (splitLines rest).tail

/-- Strip a leading U+FEFF (`content.charCodeAt(0) === 0xfeff`). -/
def stripBOM : List Char → List Char
  | [] => []
  | c :: rest => if c.toNat = 0xFEFF then rest else c :: rest

/-- Reinterpret a 32-bit pattern as a signed two's-complement integer. -/
def toInt32 (n : Nat) : Int :=
  if n < 0x80000000 then (n : Int) else (n : Int) - 0x100000000

/-- `ComputeChecksum(content)` of checksum.ts. -/
def ComputeChecksum (content : List Char) : Int :=
  toInt32 ((splitLines (stripBOM content)).foldl
    (fun crc line => crc32buf crc (utf8Bytes line)) 0)

/-- A character that is not part of any line terminator. -/
def noEolChar (c : Char) : Bool :=
  !(c = '\r' || c = '\n')

/-- A line terminator: `\n`, `\r`, or `\r\n`. -/
inductive EOL where
  | lf
  | cr
  | crlf
deriving DecidableEq, Repr

/-- The characters of a line terminator. -/
def eolChars : EOL → List Char
  | .lf => ['\n']
  | .cr => ['\r']
  | .crlf => ['\r', '\n']

/-- Interleave line segments with chosen line terminators: the script whose
lines are `segs` and whose `i`-th line terminator is `ts[i]`. -/
def renderLines : List (List Char) → List EOL → List Char
  | [], _ => []
  | [l], _ => l
  | l :: ls, t :: ts => l ++ (eolChars t ++ renderLines ls ts)
  | l :: ls, [] => l ++ renderLines ls []

theorem splitLines_ne_nil (l : List Char) : splitLines l ≠ [] := by
  rw [splitLines.eq_def]
  split <;> simp

theorem splitLines_other {c : Char} (rest : List Char) (h1 : c ≠ '\r')
    (h2 : c ≠ '\n') :
    splitLines (c :: rest) =
      (c :: (splitLines rest).headD []) :: (splitLines rest).tail := by
  rw [splitLines.eq_def]
  split <;> simp_all

theorem splitLines_cr_of_ne {x : Char} (xs : List Char) (hx : x ≠ '\n') :
    splitLines ('\r' :: x :: xs) = [] :: splitLines (x :: xs) := by
  rw [splitLines.eq_def]
  split
  all_goals try simp_all
  rename_i hcr _ heq
  exact absurd heq.1.symm hcr

theorem splitLines_flatten_append {l : List Char} (r : List Char)
    (h : l.all noEolChar = true) :
    (splitLines (l ++ r)).flatten = l ++ (splitLines r).flatten := by
  induction l with
  | nil => rfl
  | cons c cs ih =>
    simp only [List.all_cons, Bool.and_eq_true] at h
    have hc := h.1
    simp only [noEolChar, Bool.not_eq_true', Bool.or_eq_false_iff,
      decide_eq_false_iff_not] at hc
    rw [List.cons_append, splitLines_other _ hc.1 hc.2]
    rcases hS : splitLines (cs ++ r) with _ | ⟨x, xs⟩
    · exact absurd hS (splitLines_ne_nil _)
    · have hflat : x ++ xs.flatten = cs ++ (splitLines r).flatten := by
        have h2 := ih h.2
        rw [hS] at h2
        simpa using h2
      simp [hS, hflat]

theorem splitLines_flatten_eol (t : EOL) (r : List Char) :
    (splitLines (eolChars t ++ r)).flatten = (splitLines r).flatten := by
  cases t with
  | lf => simp [eolChars, splitLines]
  | crlf => simp [eolChars, splitLines]
  | cr =>
    cases r with
    | nil => simp [eolChars, splitLines]
    | cons x xs =>
      by_cases hx : x = '\n'
      · subst hx
        simp [eolChars, splitLines]
      · show (splitLines ('\r' :: x :: xs)).flatten = _
        rw [splitLines_cr_of_ne xs hx]
        simp

theorem splitLines_flatten_render (segs : List (List Char)) :
    ∀ ts : List EOL, (∀ l ∈ segs, l.all noEolChar = true) →
      (splitLines (renderLines segs ts)).flatten = segs.flatten := by
  induction segs with
  | nil =>
    intro ts _
    cases ts <;> rfl
  | cons l ls ih =>
    intro ts h
    have h1 : l.all noEolChar = true := h l (by simp)
    have htail : ∀ x ∈ ls, x.all noEolChar = true :=
      fun x hx => h x (List.mem_cons_of_mem _ hx)
    cases ls with
    | nil =>
      have hren : renderLines [l] ts = l := by cases ts <;> rfl
      rw [hren]
      have := splitLines_flatten_append [] h1
      simpa [splitLines] using this
    | cons l2 ls2 =>
      cases ts with
      | nil =>
        show (splitLines (l ++ renderLines (l2 :: ls2) [])).flatten = _
        rw [splitLines_flatten_append _ h1, ih [] htail]
        simp
      | cons t ts2 =>
        show (splitLines (l ++ (eolChars t ++ renderLines (l2 :: ls2) ts2))).flatten = _
        rw [splitLines_flatten_append _ h1, splitLines_flatten_eol,
          ih ts2 htail]
        simp

theorem splitLines_noEol_k :
    ∀ (k : Nat) (l : List Char), l.length ≤ k →
      ∀ x ∈ splitLines l, x.all noEolChar = true := by
  intro k
  induction k with
  | zero =>
    intro l hl x hx
    have : l = [] := List.eq_nil_of_length_eq_zero (Nat.le_zero.mp hl)
    subst this
    have hx2 : x = [] := by simpa [splitLines] using hx
    subst hx2
    rfl
  | succ k ih =>
    intro l hl x hx
    rcases l with _ | ⟨c, rest⟩
    · have hx2 : x = [] := by simpa [splitLines] using hx
      subst hx2
      rfl
    · simp only [List.length_cons, Nat.add_le_add_iff_right] at hl
      by_cases hcr : c = '\r'
      · subst hcr
        rcases rest with _ | ⟨y, ys⟩
        · have hx2 : x = [] := by simpa [splitLines] using hx
          subst hx2
          rfl
        · by_cases hy : y = '\n'
          · subst hy
            simp only [splitLines, List.mem_cons] at hx
            rcases hx with hx | hx
            · subst hx; rfl
            · exact ih ys (by simp only [List.length_cons] at hl; omega) x hx
          · rw [splitLines_cr_of_ne ys hy] at hx
            simp only [List.mem_cons] at hx
            rcases hx with hx | hx
            · subst hx; rfl
            · exact ih (y :: ys) hl x hx
      · by_cases hlf : c = '\n'
        · subst hlf
          have : splitLines ('\n' :: rest) = [] :: splitLines rest := rfl
          rw [this] at hx
          simp only [List.mem_cons] at hx
          rcases hx with hx | hx
          · subst hx; rfl
          · exact ih rest hl x hx
        · rw [splitLines_other rest hcr hlf] at hx
          have hrec := ih rest hl
          rcases hS : splitLines rest with _ | ⟨s0, S⟩
          · exact absurd hS (splitLines_ne_nil _)
          · rw [hS] at hx
            simp only [List.headD_cons, List.tail_cons, List.mem_cons] at hx
            rcases hx with hx | hx
            · subst hx
              have hs0 : s0.all noEolChar = true := by
                apply hrec
                rw [hS]
                simp
              simp only [List.all_cons, Bool.and_eq_true]
              refine ⟨?_, hs0⟩
              simp [noEolChar, hcr, hlf]
            · apply hrec
              rw [hS]
              exact List.mem_cons_of_mem _ hx

theorem splitLines_noEol (l : List Char) :
    ∀ x ∈ splitLines l, x.all noEolChar = true :=
  splitLines_noEol_k l.length l (Nat.le_refl _)

theorem utf8Bytes_append (a b : List Char) :
    utf8Bytes (a ++ b) = utf8Bytes a ++ utf8Bytes b := by
  simp [utf8Bytes]

theorem crc32buf_nil (x : Nat) : crc32buf x [] = x := by
  simp [crc32buf, Nat.xor_assoc]

theorem crc32buf_append (s : Nat) (a b : List Nat) :
    crc32buf (crc32buf s a) b = crc32buf s (a ++ b) := by
  simp only [crc32buf, List.foldl_append]
  congr 1
  rw [Nat.xor_assoc, Nat.xor_self, Nat.xor_zero]

theorem crc_fold_lines (lines : List (List Char)) :
    ∀ s : Nat,
      lines.foldl (fun crc line => crc32buf crc (utf8Bytes line)) s =
        crc32buf s (utf8Bytes lines.flatten) := by
  induction lines with
  | nil => intro s; rw [List.foldl_nil, List.flatten_nil]; exact (crc32buf_nil s).symm
  | cons l ls ih =>
    intro s
    rw [List.foldl_cons, ih, List.flatten_cons, utf8Bytes_append,
      crc32buf_append]

/-- `ComputeChecksum` is the CRC of the concatenated line bodies: no line
terminator byte is ever fed to the CRC. -/
theorem ComputeChecksum_eq_flatten (content : List Char) :
    ComputeChecksum content =
      toInt32 (crc32buf 0 (utf8Bytes
        ((splitLines (stripBOM content)).flatten))) := by
  unfold ComputeChecksum
  rw [crc_fold_lines]

theorem renderLines_cons_head (c : Char) (l0 : List Char)
    (ls : List (List Char)) (ts : List EOL) :
    renderLines ((c :: l0) :: ls) ts = c :: renderLines (l0 :: ls) ts := by
  cases ls with
  | nil => cases ts <;> rfl
  | cons l2 ls2 =>
    cases ts with
    | nil => simp [renderLines]
    | cons t ts2 => simp [renderLines]

theorem stripBOM_eol (t : EOL) (r : List Char) :
    stripBOM (eolChars t ++ r) = eolChars t ++ r := by
  cases t <;> rfl

/-- The segment list with a leading BOM stripped from its first segment. -/
def stripHeadSegs : List (List Char) → List (List Char)
  | [] => []
  | l :: ls => stripBOM l :: ls

/-- The byte-relevant content of a rendered script does not depend on the
chosen terminators, provided every terminator slot between two segments is
actually filled (`ts.length = segs.length - 1`) and the segments are
terminator-free. -/
theorem stripBOM_render_flatten (segs : List (List Char)) (ts : List EOL)
    (hno : ∀ l ∈ segs, l.all noEolChar = true)
    (hts : ts.length = segs.length - 1) :
    (splitLines (stripBOM (renderLines segs ts))).flatten =
      (stripHeadSegs segs).flatten := by
  rcases segs with _ | ⟨l, ls⟩
  · rfl
  rcases l with _ | ⟨c, l0⟩
  · rcases ls with _ | ⟨l2, ls2⟩
    · cases ts <;> rfl
    · rcases ts with _ | ⟨t, ts2⟩
      · simp at hts
      · show (splitLines (stripBOM ([] ++ (eolChars t ++
            renderLines (l2 :: ls2) ts2)))).flatten = _
        rw [List.nil_append, stripBOM_eol, splitLines_flatten_eol]
        have htail : ∀ x ∈ l2 :: ls2, x.all noEolChar = true :=
          fun x hx => hno x (List.mem_cons_of_mem _ hx)
        rw [splitLines_flatten_render _ ts2 htail]
        simp [stripHeadSegs, stripBOM]
  · rw [renderLines_cons_head]
    have hl0ls : ∀ x ∈ l0 :: ls, x.all noEolChar = true := by
      intro x hx
      rcases List.mem_cons.mp hx with hx | hx
      · have h2 := hno (c :: l0) (by simp)
        simp only [List.all_cons, Bool.and_eq_true] at h2
        rw [hx]
        exact h2.2
      · exact hno x (List.mem_cons_of_mem _ hx)
    by_cases hbom : c.toNat = 0xFEFF
    · have hstrip : stripBOM (c :: renderLines (l0 :: ls) ts) =
          renderLines (l0 :: ls) ts := by
        simp [stripBOM, hbom]
      rw [hstrip, splitLines_flatten_render _ ts hl0ls]
      simp [stripHeadSegs, stripBOM, hbom]
    · have hstrip : stripBOM (c :: renderLines (l0 :: ls) ts) =
          c :: renderLines (l0 :: ls) ts := by
        simp [stripBOM, hbom]
      rw [hstrip, ← renderLines_cons_head,
        splitLines_flatten_render _ ts hno]
      simp [stripHeadSegs, stripBOM, hbom]

/-- C4: `ComputeChecksum` is invariant under replacing the line terminators
of a script by any of `\n`, `\r`, `\r\n`, and no line-terminator byte is
ever fed to the CRC-32: the checksum is the CRC over the concatenated
UTF-8 bytes of the split lines, each of which is free of `\r` and `\n`. -/
theorem C4_checksum_line_terminator_invariance :
    (∀ (segs : List (List Char)) (ts ts2 : List EOL),
        (∀ l ∈ segs, l.all noEolChar = true) →
        ts.length = segs.length - 1 →
        ts2.length = segs.length - 1 →
        ComputeChecksum (renderLines segs ts) =
          ComputeChecksum (renderLines segs ts2)) ∧
      ∀ content : List Char,
        ComputeChecksum content =
            toInt32 (crc32buf 0 (utf8Bytes
              ((splitLines (stripBOM content)).flatten))) ∧
          ∀ l ∈ splitLines (stripBOM content), l.all noEolChar = true := by
  constructor
  · intro segs ts ts2 hno hts hts2
    rw [ComputeChecksum_eq_flatten, ComputeChecksum_eq_flatten,
      stripBOM_render_flatten segs ts hno hts,
      stripBOM_render_flatten segs ts2 hno hts2]
  · intro content
    exact ⟨ComputeChecksum_eq_flatten content, splitLines_noEol _⟩

/-- Witness for C4: the two-line script with LF terminators against the same
script with a CRLF terminator. -/
theorem C4_witness :
    (∀ l ∈ [['a'], ['b']], l.all noEolChar = true) ∧
      ([EOL.lf].length = [['a'], ['b']].length - 1) ∧
      ([EOL.crlf].length = [['a'], ['b']].length - 1) ∧
      ComputeChecksum ("a\nb").data = ComputeChecksum ("a\r\nb").data :=
  ⟨by decide, by decide, by decide,
    C4_checksum_line_terminator_invariance.1 [['a'], ['b']] [EOL.lf]
      [EOL.crlf] (by decide) (by decide) (by decide)⟩

/-!
## Filename parser — module migration/parser (src/unnamed/part_013)

`VERSIONED_PATTERN = /^([VvBb])(\d[\w.]*)__(.+)\.sql$/` and
`REPEATABLE_PATTERN = /^[Rr]__(.+)\.sql$/`, repeatable tried first.
-/

/-- `MigrationType` — determined by the filename prefix letter. -/
inductive MigrationType where
  | versioned
  | baseline
  | repeatable
deriving DecidableEq, Repr

/-- Parsed migration filename metadata (`MigrationInfo`).  The path-derived
fields (`FilePath`, `ScriptPath`) depend only on the path library and are
not modelled; the claims concern the type, version and description. -/
structure MigrationInfo where
  MType : MigrationType
  Version : Option String
  Description : String
  Filename : String
deriving DecidableEq, Repr

/-- `\w` (ASCII word character, underscore included) or a literal dot — the
continuation character class of the version capture `\d[\w.]*`. -/
def wordOrDot (c : Char) : Bool :=
  c.isAlphanum || c = '_' || c = '.'

/-- `\d[\w.]*` — non-empty, a leading digit, then word characters or dots. -/
def validVersionGroup : List Char → Bool
  | [] => false
  | c :: cs => c.isDigit && cs.all wordOrDot

/-- `formatDescription`: `raw.replace(/_/g, ' ')`. -/
def formatDescription (raw : List Char) : String :=
  String.mk (raw.map (fun c => if c = '_' then ' ' else c))

/-- The `$`-anchored literal suffix `\.sql`: check that the text ends with
`.sql` and return the part before it. -/
def chopSqlSuffix (l : List Char) : Option (List Char) :=
  if 4 ≤ l.length ∧ l.drop (l.length - 4) = ['.', 's', 'q', 'l'] then
    some (l.take (l.length - 4))
  else none

/-- The interior of the versioned/baseline pattern after the prefix letter
and before `.sql`: `(\d[\w.]*)__(.+)`.  The regex engine's backtracking of
the greedy `[\w.]*` selects the LONGEST version group that is followed by
`__` and a non-empty description. -/
def versionedSplit (core : List Char) : Option (List Char × List Char) :=
  (List.range (core.length + 1)).reverse.findSome? fun k =>
    if validVersionGroup (core.take k) ∧ (core.drop k).take 2 = ['_', '_'] ∧
        (core.drop k).drop 2 ≠ [] then
      some (core.take k, (core.drop k).drop 2)
    else none

/-- `REPEATABLE_PATTERN`: `[Rr]` then `__`, then a non-empty description
followed by `.sql`. -/
def parseRepeatable : List Char → Option (List Char)
  | r :: '_' :: '_' :: rest =>
    if r = 'R' ∨ r = 'r' then
      (chopSqlSuffix rest).bind (fun d => if d = [] then none else some d)
    else none
  | _ => none

/-- `ParseMigrationFilename(filePath, migrationRoot)` restricted to the
basename: the repeatable pattern is tried first, then the
versioned/baseline pattern; `none` models the thrown
`MigrationParseError`. -/
def ParseMigrationFilename (filename : String) : Option MigrationInfo :=
  match parseRepeatable filename.data with
  | some d => some ⟨.repeatable, none, formatDescription d, filename⟩
  | none =>
    match filename.data with
    | p :: rest =>
      if p = 'V' ∨ p = 'v' ∨ p = 'B' ∨ p = 'b' then
        match chopSqlSuffix rest with
        | some core =>
          match versionedSplit core with
          | some (g2, g3) =>
            some ⟨if p = 'B' ∨ p = 'b' then .baseline else .versioned,
              some (String.mk g2), formatDescription g3, filename⟩
          | none => none
        | none => none
      else none
    | [] => none

example :
    ParseMigrationFilename "V202601200000__Add_Users.sql" =
      some ⟨.versioned, some "202601200000", "Add Users",
        "V202601200000__Add_Users.sql"⟩ := by decide

example :
    ParseMigrationFilename "B202601122300__v3.0_Baseline.sql" =
      some ⟨.baseline, some "202601122300", "v3.0 Baseline",
        "B202601122300__v3.0_Baseline.sql"⟩ := by decide

example :
    ParseMigrationFilename "R__Refresh_Views.sql" =
      some ⟨.repeatable, none, "Refresh Views", "R__Refresh_Views.sql"⟩ := by
  decide

example : ParseMigrationFilename "V1_Init.sql" = none := by decide

example : ParseMigrationFilename "V1__Init.sql" =
    some ⟨.versioned, some "1", "Init", "V1__Init.sql"⟩ := by decide

/-- C3 (code evaluated at the failing input): the claim — like the parser's
own doc-comment example and the repository's parser tests — states that only
the leading digits form the version, so `V202601200000__v3.1.x__Add.sql`
parses to version `202601200000` and description `v3.1.x  Add`.  The
pattern's version group `\d[\w.]*` also accepts underscores (`\w` contains
`_`), and its greedy match backtracks to the LAST `__` separator, so the
code instead captures version `202601200000__v3.1.x` with description
`Add`, and on the test-suite input `V202601200000__v3.1.x__Add_Table.sql`
version `202601200000__v3.1.x` with description `Add Table` (the test
expects `202601200000` and `v3.1.x  Add Table`). -/
theorem C3_parser_greedy_digit_divergence :
    ParseMigrationFilename "V202601200000__v3.1.x__Add.sql" =
        some ⟨MigrationType.versioned, some "202601200000__v3.1.x", "Add",
          "V202601200000__v3.1.x__Add.sql"⟩ ∧
      ParseMigrationFilename "V202601200000__v3.1.x__Add_Table.sql" =
        some ⟨MigrationType.versioned, some "202601200000__v3.1.x",
          "Add Table", "V202601200000__v3.1.x__Add_Table.sql"⟩ := by
  refine ⟨by decide, by decide⟩

/-!
## Data model — migration/types, history/types
-/

/-- The `type` column values of the history table
(`HistoryRecordType`). -/
inductive HistoryType where
  | SCHEMA
  | SQL
  | SQL_BASELINE
  | BASELINE
deriving DecidableEq, Repr

/-- A row of the schema history table (interface `HistoryRecord`).
`InstalledOn` is an opaque timestamp. -/
structure HistoryRecord where
  InstalledRank : Int
  Version : Option String
  Description : String
  HType : HistoryType
  Script : String
  Checksum : Option Int
  InstalledBy : String
  InstalledOn : Nat
  ExecutionTime : Int
  Success : Bool
deriving DecidableEq, Repr

/-- A migration resolved from disk (interface `ResolvedMigration`). -/
structure ResolvedMigration where
  MType : MigrationType
  Version : Option String
  Description : String
  Filename : String
  ScriptPath : String
  SQL : String
  Checksum : Int
deriving DecidableEq, Repr

/-- Reporting state of a migration (`MigrationState`). -/
inductive MigrationState where
  | PENDING
  | APPLIED
  | MISSING
  | FAILED
  | OUTDATED
  | BASELINE
  | ABOVE_BASELINE
deriving DecidableEq, Repr

/-- An entry of the resolver's status report (`MigrationStatus`). -/
structure MigrationStatus where
  MType : MigrationType
  Version : Option String
  Description : String
  State : MigrationState
  Script : String
  DiskChecksum : Option Int
  AppliedChecksum : Option Int
  InstalledOn : Option Nat
  ExecutionTime : Option Int
deriving DecidableEq, Repr

/-!
## Resolver — migration/resolver

Translated from `ResolveMigrations` in src/unnamed/part_013.  The
baseline-selection block and the `EffectiveBaselineVersion` /
`BaselineAutoSelected` / `BaselineFileCount` fields are modelled from the
spec: the current resolver file is absent from the sources — part_013 holds
the pre-auto-select revision, while the orchestrator (src/unnamed/part_012),
the resolver unit tests and plans/002-auto-select-highest-baseline.md all
require the behavior specified here.  Each loop iteration of the source
appends exactly one status entry and at most one pending entry and carries
no state between iterations, so the loops are rendered as `map`/`filter`
over per-element functions.
-/

/-- The schema-creation marker description. -/
def schemaMarkerDescription : String := "<< Flyway Schema Creation >>"

/-- `appliedByVersion.get(v)` — the map is built by one `Map.set` pass over
`applied` keyed on non-null versions, so the last record with the version
wins. -/
def appliedByVersionGet (applied : List HistoryRecord) (v : Option String) :
    Option HistoryRecord :=
  match v with
  | none => none
  | some s => applied.reverse.find? (fun r => r.Version = some s)

/-- `appliedRepeatables.get(d)` — records with null version, type `SQL` and
a description other than the schema marker, keyed by description, last
wins. -/
def appliedRepeatablesGet (applied : List HistoryRecord) (d : String) :
    Option HistoryRecord :=
  applied.reverse.find? (fun r =>
    r.Version = none ∧ r.HType = HistoryType.SQL ∧
      r.Description ≠ schemaMarkerDescription ∧ r.Description = d)

/-- `hasHistory` — some applied row is of type `SQL`, `SQL_BASELINE` or
`BASELINE`. -/
def hasHistory (applied : List HistoryRecord) : Bool :=
  applied.any (fun r => r.HType = HistoryType.SQL ∨
    r.HType = HistoryType.SQL_BASELINE ∨ r.HType = HistoryType.BASELINE)

/-- `shouldBaseline = !hasHistory && baselineOnMigrate`. -/
def shouldBaselineOf (applied : List HistoryRecord)
    (baselineOnMigrate : Bool) : Bool :=
  !hasHistory applied && baselineOnMigrate

/-- Strict lexicographic comparison of character lists — JavaScript `<` on
strings compares UTF-16 code units, which for the BMP characters of
version strings is codepoint order. -/
def listCharLt : List Char → List Char → Bool
  | [], [] => false
  | [], _ :: _ => true
  | _ :: _, [] => false
  | a :: as, b :: bs =>
    if a < b then true else if b < a then false else listCharLt as bs

/-- Non-strict lexicographic comparison of character lists. -/
def listCharLe : List Char → List Char → Bool
  | [], _ => true
  | _ :: _, [] => false
  | a :: as, b :: bs =>
    if a < b then true else if b < a then false else listCharLe as bs

/-- JavaScript `a < b` on version strings. -/
def strLt (a b : String) : Bool :=
  listCharLt a.data b.data

/-- JavaScript `a <= b` on version strings. -/
def strLe (a b : String) : Bool :=
  listCharLe a.data b.data

/-- The sort key of `.sort((a, b) => a.Version!.localeCompare(b.Version!))`:
for the digit strings used as versions, `localeCompare` agrees with
code-unit comparison; an absent version sorts as the empty string (the
source asserts the version non-null for versioned and baseline
migrations). -/
def versionKey (m : ResolvedMigration) : String :=
  m.Version.getD ""

/-- The ascending stable version sort of the source. -/
def sortByVersion (l : List ResolvedMigration) : List ResolvedMigration :=
  List.insertionSort (fun a b => strLe (versionKey a) (versionKey b) = true) l

/-- `getHighestAppliedVersion` — fold retaining the maximal non-null,
non-`SCHEMA` version. -/
def getHighestAppliedVersion (applied : List HistoryRecord) :
    Option String :=
  applied.foldl
    (fun highest r =>
      match r.Version with
      | some v =>
        if r.HType = HistoryType.SCHEMA then highest
        else
          match highest with
          | none => some v
          | some h => if strLt h v then some v else highest
      | none => highest)
    none

/-- Modelled from the spec: the baseline-selection step of
`ResolveMigrations`.  When `shouldBaseline` holds and baselines exist: for
the sentinel `baselineVersion = "1"` ("not explicitly set") auto-select the
highest-versioned baseline (the last of the ascending sort); otherwise
select the baseline whose version equals `baselineVersion`, or none. -/
def selectBaseline (baselinesSorted : List ResolvedMigration)
    (baselineVersion : String) (shouldBaseline : Bool) :
    Option ResolvedMigration :=
  if shouldBaseline = true ∧ baselinesSorted ≠ [] then
    if baselineVersion = "1" then baselinesSorted.getLast?
    else baselinesSorted.find? (fun b => b.Version = some baselineVersion)
  else none

/-- The status entry pushed for the selected baseline. -/
def baselineStatus (b : ResolvedMigration) : MigrationStatus :=
  ⟨.baseline, b.Version, b.Description, .PENDING, b.ScriptPath,
    some b.Checksum, none, none, none⟩

/-- `migration.Version! <= effectiveBaselineVersion` (false when no
baseline is selected). -/
def belowOrAtBaseline (ebv : Option String) (m : ResolvedMigration) : Bool :=
  match ebv with
  | some e => strLe (versionKey m) e
  | none => false

/-- The skip condition of the out-of-order branch:
`!outOfOrder && highestApplied !== null && version < highestApplied`. -/
def isOutOfOrderSkip (outOfOrder : Bool) (highestApplied : Option String)
    (m : ResolvedMigration) : Bool :=
  !outOfOrder &&
    (match highestApplied with
     | some h => strLt (versionKey m) h
     | none => false)

/-- One iteration of the versioned-migration loop: the status entry pushed
for `m` (the out-of-order and plain-pending branches push the same
`PENDING` entry; they differ only in the pending list,
`versionedPendingP`). -/
def versionedStatus (applied : List HistoryRecord) (shouldBaseline : Bool)
    (ebv : Option String) (m : ResolvedMigration) : MigrationStatus :=
  match appliedByVersionGet applied m.Version with
  | some rec =>
    ⟨.versioned, m.Version, m.Description,
      if rec.Success = false then .FAILED else .APPLIED,
      m.ScriptPath, some m.Checksum, rec.Checksum, some rec.InstalledOn,
      some rec.ExecutionTime⟩
  | none =>
    if shouldBaseline && belowOrAtBaseline ebv m then
      ⟨.versioned, m.Version, m.Description, .ABOVE_BASELINE, m.ScriptPath,
        some m.Checksum, none, none, none⟩
    else
      ⟨.versioned, m.Version, m.Description, .PENDING, m.ScriptPath,
        some m.Checksum, none, none, none⟩

/-- Whether the versioned-migration iteration adds `m` to the pending
list: not applied, not covered by the baseline, not skipped as
out-of-order. -/
def versionedPendingP (applied : List HistoryRecord) (shouldBaseline : Bool)
    (ebv : Option String) (outOfOrder : Bool)
    (highestApplied : Option String) (m : ResolvedMigration) : Bool :=
  (appliedByVersionGet applied m.Version).isNone &&
    !(shouldBaseline && belowOrAtBaseline ebv m) &&
    !isOutOfOrderSkip outOfOrder highestApplied m

/-- The applied-but-not-on-disk filter of the missing-migrations loop. -/
def missingP (discovered : List ResolvedMigration) (r : HistoryRecord) :
    Bool :=
  r.Version.isSome && !(r.HType = HistoryType.SCHEMA) &&
    !(discovered.any (fun m =>
      m.Version = r.Version ∧ m.MType ≠ MigrationType.repeatable))

/-- The status entry pushed for an applied row missing on disk. -/
def missingStatus (r : HistoryRecord) : MigrationStatus :=
  ⟨.versioned, r.Version, r.Description, .MISSING, r.Script, none,
    r.Checksum, some r.InstalledOn, some r.ExecutionTime⟩

/-- One iteration of the repeatable-migration loop: the status entry. -/
def repeatableStatus (applied : List HistoryRecord)
    (m : ResolvedMigration) : MigrationStatus :=
  match appliedRepeatablesGet applied m.Description with
  | none =>
    ⟨.repeatable, none, m.Description, .PENDING, m.ScriptPath,
      some m.Checksum, none, none, none⟩
  | some rec =>
    if rec.Checksum ≠ some m.Checksum then
      ⟨.repeatable, none, m.Description, .OUTDATED, m.ScriptPath,
        some m.Checksum, rec.Checksum, some rec.InstalledOn,
        some rec.ExecutionTime⟩
    else
      ⟨.repeatable, none, m.Description, .APPLIED, m.ScriptPath,
        some m.Checksum, rec.Checksum, some rec.InstalledOn,
        some rec.ExecutionTime⟩

/-- Whether the repeatable-migration iteration adds `m` to the pending
list: never run before, or recorded with a different checksum. -/
def repeatablePendingP (applied : List HistoryRecord)
    (m : ResolvedMigration) : Bool :=
  match appliedRepeatablesGet applied m.Description with
  | none => true
  | some rec => rec.Checksum ≠ some m.Checksum

/-- The result of resolving migrations (interface `ResolverResult`, with
the fields added by the auto-baseline change). -/
structure ResolverResult where
  PendingMigrations : List ResolvedMigration
  StatusReport : List MigrationStatus
  ShouldBaseline : Bool
  EffectiveBaselineVersion : Option String
  BaselineAutoSelected : Bool
  BaselineFileCount : Nat
deriving DecidableEq, Repr

/-- `ResolveMigrations(discovered, applied, baselineVersion,
baselineOnMigrate, outOfOrder)`. -/
def ResolveMigrations (discovered : List ResolvedMigration)
    (applied : List HistoryRecord) (baselineVersion : String)
    (baselineOnMigrate : Bool) (outOfOrder : Bool) : ResolverResult :=
  let shouldBaseline := shouldBaselineOf applied baselineOnMigrate
  let versioned :=
    sortByVersion (discovered.filter (fun m => m.MType = .versioned))
  let baselines :=
    sortByVersion (discovered.filter (fun m => m.MType = .baseline))
  let repeatables := discovered.filter (fun m => m.MType = .repeatable)
  let highestApplied := getHighestAppliedVersion applied
  let selected := selectBaseline baselines baselineVersion shouldBaseline
  let ebv := selected.bind (fun b => b.Version)
  { PendingMigrations :=
      selected.toList ++
        versioned.filter
          (versionedPendingP applied shouldBaseline ebv outOfOrder
            highestApplied) ++
        repeatables.filter (repeatablePendingP applied)
    StatusReport :=
      selected.toList.map baselineStatus ++
        versioned.map (versionedStatus applied shouldBaseline ebv) ++
        (applied.filter (missingP discovered)).map missingStatus ++
        repeatables.map (repeatableStatus applied)
    ShouldBaseline := shouldBaseline
    EffectiveBaselineVersion := ebv
    BaselineAutoSelected := baselineVersion = "1" && selected.isSome
    BaselineFileCount := baselines.length }

/-- A `ResolvedMigration` as built by the resolver unit tests. -/
def mkMig (t : MigrationType) (v : Option String) (d : String) :
    ResolvedMigration :=
  ⟨t, v, d, "f.sql", "f.sql", "SELECT 1", 12345⟩

example :
    (ResolveMigrations
      [mkMig .baseline (some "202401010000") "v1",
        mkMig .baseline (some "202501010000") "v2",
        mkMig .baseline (some "202601122300") "v3"]
      [] "1" true false).EffectiveBaselineVersion = some "202601122300" := by
  decide

example :
    (ResolveMigrations
      [mkMig .baseline (some "202401010000") "v1",
        mkMig .baseline (some "202501010000") "v2",
        mkMig .baseline (some "202601122300") "v3"]
      [] "202501010000" true false).BaselineAutoSelected = false := by decide

example :
    ((ResolveMigrations
      [mkMig .baseline (some "202601122300") "v3 Baseline",
        mkMig .versioned (some "202401010001") "Add Users Table",
        mkMig .versioned (some "202501010001") "Add Roles Table",
        mkMig .versioned (some "202601010000") "Add Audit Log",
        mkMig .versioned (some "202601122301") "Add Notifications"]
      [] "1" true false).StatusReport.countP
        (fun s => s.State = MigrationState.ABOVE_BASELINE)) = 3 := by decide

example :
    ((ResolveMigrations
      [mkMig .baseline (some "202601122300") "v3 Baseline",
        mkMig .versioned (some "202401010001") "Add Users Table",
        mkMig .versioned (some "202601122301") "Add Notifications"]
      [] "1" true false).PendingMigrations.map
        (fun m => m.Version)) =
      [some "202601122300", some "202601122301"] := by decide

theorem listCharLe_refl : ∀ a : List Char, listCharLe a a = true := by
  intro a
  induction a with
  | nil => rfl
  | cons x xs ih => simp [listCharLe, lt_irrefl, ih]

theorem listCharLe_total :
    ∀ a b : List Char, listCharLe a b = true ∨ listCharLe b a = true := by
  intro a
  induction a with
  | nil => intro b; left; rfl
  | cons x xs ih =>
    intro b
    cases b with
    | nil => right; rfl
    | cons y ys =>
      by_cases hxy : x < y
      · left; simp [listCharLe, hxy]
      · by_cases hyx : y < x
        · right; simp [listCharLe, hyx]
        · rcases ih ys with h | h
          · left; simp [listCharLe, hxy, hyx, h]
          · right; simp [listCharLe, hxy, hyx, h]

theorem listCharLe_trans :
    ∀ {a b c : List Char}, listCharLe a b = true → listCharLe b c = true →
      listCharLe a c = true := by
  intro a
  induction a with
  | nil => intro b c _ _; rfl
  | cons x xs ih =>
    intro b c hab hbc
    cases b with
    | nil => exact absurd hab (by simp [listCharLe])
    | cons y ys =>
      cases c with
      | nil => exact absurd hbc (by simp [listCharLe])
      | cons z zs =>
        by_cases hxy : x < y
        · by_cases hyz : y < z
          · simp [listCharLe, lt_trans hxy hyz]
          · by_cases hzy : z < y
            · exact absurd hbc (by simp [listCharLe, hyz, hzy])
            · have hyz2 : y = z := le_antisymm (le_of_not_lt hzy) (le_of_not_lt hyz)
              subst hyz2
              simp [listCharLe, hxy]
        · by_cases hyx : y < x
          · exact absurd hab (by simp [listCharLe, hxy, hyx])
          · have hxy2 : x = y := le_antisymm (le_of_not_lt hyx) (le_of_not_lt hxy)
            subst hxy2
            simp only [listCharLe, if_neg (lt_irrefl x)] at hab
            by_cases hyz : x < z
            · simp [listCharLe, hyz]
            · by_cases hzy : z < x
              · exact absurd hbc (by simp [listCharLe, hyz, hzy])
              · have : x = z := le_antisymm (le_of_not_lt hzy) (le_of_not_lt hyz)
                subst this
                simp only [listCharLe, if_neg (lt_irrefl x)] at hbc ⊢
                exact ih hab hbc

theorem sortByVersion_perm (l : List ResolvedMigration) :
    List.Perm (sortByVersion l) l :=
  List.perm_insertionSort _ l

theorem sortByVersion_sorted (l : List ResolvedMigration) :
    (sortByVersion l).Sorted
      (fun a b => strLe (versionKey a) (versionKey b) = true) := by
  haveI : IsTotal ResolvedMigration
      (fun a b => strLe (versionKey a) (versionKey b) = true) :=
    ⟨fun a b => listCharLe_total _ _⟩
  haveI : IsTrans ResolvedMigration
      (fun a b => strLe (versionKey a) (versionKey b) = true) :=
    ⟨fun a b c hab hbc => listCharLe_trans hab hbc⟩
  exact List.sorted_insertionSort _ l

theorem pairwise_le_getLast :
    ∀ {l : List ResolvedMigration} {b : ResolvedMigration},
      l.Sorted (fun a b => strLe (versionKey a) (versionKey b) = true) →
      l.getLast? = some b →
      ∀ x ∈ l, strLe (versionKey x) (versionKey b) = true := by
  intro l
  induction l with
  | nil => intro b _ hl; simp at hl
  | cons a as ih =>
    intro b hs hl x hx
    rcases as with _ | ⟨a2, as2⟩
    · have hb : b = a := by
        have : (some a : Option ResolvedMigration) = some b := hl
        injection this with h
        exact h.symm
      subst hb
      have hx2 : x = b := by simpa using hx
      subst hx2
      exact listCharLe_refl _
    · have hl2 : (a2 :: as2).getLast? = some b := hl
      have hne : (a2 :: as2) ≠ [] := by simp
      have hbmem : b ∈ a2 :: as2 := by
        have h3 := List.getLast?_eq_getLast_of_ne_nil hne
        rw [hl2] at h3
        have hb : b = (a2 :: as2).getLast hne := Option.some.inj h3
        rw [hb]
        exact List.getLast_mem hne
      have hpc := List.pairwise_cons.mp hs
      rcases List.mem_cons.mp hx with hx | hx
      · rw [hx]
        exact hpc.1 b hbmem
      · exact ih hpc.2 hl2 x hx

theorem ResolveMigrations_selected_head (discovered : List ResolvedMigration)
    (applied : List HistoryRecord) (bv : String) (bom ooo : Bool)
    (b : ResolvedMigration)
    (hsel : selectBaseline
      (sortByVersion
        (discovered.filter (fun m => m.MType = MigrationType.baseline)))
      bv (shouldBaselineOf applied bom) = some b) :
    (ResolveMigrations discovered applied bv bom ooo).PendingMigrations.head? =
        some b ∧
      (ResolveMigrations discovered applied bv bom
          ooo).StatusReport.head? = some (baselineStatus b) := by
  unfold ResolveMigrations
  simp [hsel]

/-- C1: on a resolver input with `shouldBaseline` true, at least one
baseline discovered, and the sentinel `baselineVersion = "1"`,
`ResolveMigrations` selects the highest-versioned baseline (by
lexicographic version comparison) and emits it as the first element of the
pending list, with a `PENDING` status-report entry in front. -/
theorem C1_auto_baseline_selects_highest
    (discovered : List ResolvedMigration) (applied : List HistoryRecord)
    (baselineOnMigrate outOfOrder : Bool)
    (hsb : shouldBaselineOf applied baselineOnMigrate = true)
    (hbs : discovered.filter (fun m => m.MType = MigrationType.baseline) ≠ []) :
    ∃ b : ResolvedMigration,
      b ∈ discovered ∧ b.MType = MigrationType.baseline ∧
      (∀ m ∈ discovered, m.MType = MigrationType.baseline →
        strLe (versionKey m) (versionKey b) = true) ∧
      (ResolveMigrations discovered applied "1" baselineOnMigrate
          outOfOrder).PendingMigrations.head? = some b ∧
      (ResolveMigrations discovered applied "1" baselineOnMigrate
          outOfOrder).StatusReport.head? = some (baselineStatus b) ∧
      (baselineStatus b).State = MigrationState.PENDING := by
  have hperm := sortByVersion_perm
    (discovered.filter (fun m => m.MType = MigrationType.baseline))
  have hbne :
      sortByVersion
        (discovered.filter (fun m => m.MType = MigrationType.baseline)) ≠ [] := by
    intro hnil
    apply hbs
    rw [hnil] at hperm
    exact List.Perm.eq_nil hperm.symm
  have hgl := List.getLast?_eq_getLast_of_ne_nil hbne
  refine ⟨(sortByVersion
    (discovered.filter (fun m => m.MType = MigrationType.baseline))).getLast
      hbne, ?_, ?_, ?_, ?_⟩
  · have hmem := List.getLast_mem hbne
    have := hperm.mem_iff.mp hmem
    exact (List.mem_filter.mp this).1
  · have hmem := List.getLast_mem hbne
    have := hperm.mem_iff.mp hmem
    have hp := (List.mem_filter.mp this).2
    exact of_decide_eq_true hp
  · intro m hm hmb
    have hmf : m ∈ discovered.filter
        (fun m => m.MType = MigrationType.baseline) :=
      List.mem_filter.mpr ⟨hm, decide_eq_true hmb⟩
    exact pairwise_le_getLast (sortByVersion_sorted _) hgl m
      (hperm.symm.mem_iff.mp hmf)
  · have hsel : selectBaseline
        (sortByVersion
          (discovered.filter (fun m => m.MType = MigrationType.baseline)))
        "1" (shouldBaselineOf applied baselineOnMigrate) =
        some ((sortByVersion
          (discovered.filter
            (fun m => m.MType = MigrationType.baseline))).getLast hbne) := by
      unfold selectBaseline
      rw [if_pos ⟨hsb, hbne⟩, if_pos rfl]
      exact hgl
    have hh := ResolveMigrations_selected_head discovered applied "1"
      baselineOnMigrate outOfOrder _ hsel
    exact ⟨hh.1, hh.2, rfl⟩

theorem versionedStatus_fields (applied : List HistoryRecord) (sb : Bool)
    (ebv : Option String) (m : ResolvedMigration) :
    (versionedStatus applied sb ebv m).MType = MigrationType.versioned ∧
      (versionedStatus applied sb ebv m).DiskChecksum = some m.Checksum := by
  cases hr : appliedByVersionGet applied m.Version with
  | none =>
    by_cases h : (sb && belowOrAtBaseline ebv m) = true <;>
      simp [versionedStatus, hr, h]
  | some rec => simp [versionedStatus, hr]

theorem repeatableStatus_mtype (applied : List HistoryRecord)
    (m : ResolvedMigration) :
    (repeatableStatus applied m).MType = MigrationType.repeatable := by
  cases hr : appliedRepeatablesGet applied m.Description with
  | none => simp [repeatableStatus, hr]
  | some rec =>
    by_cases h : rec.Checksum ≠ some m.Checksum <;>
      simp [repeatableStatus, hr, h]

theorem selectBaseline_eq_none_iff (discovered : List ResolvedMigration)
    (applied : List HistoryRecord) (bv : String) (bom : Bool) :
    selectBaseline
        (sortByVersion
          (discovered.filter (fun m => m.MType = MigrationType.baseline)))
        bv (shouldBaselineOf applied bom) = none ↔
      (shouldBaselineOf applied bom = false ∨
        discovered.filter (fun m => m.MType = MigrationType.baseline) = [] ∨
        (bv ≠ "1" ∧ ∀ b ∈ discovered, b.MType = MigrationType.baseline →
          b.Version ≠ some bv)) := by
  have hperm := sortByVersion_perm
    (discovered.filter (fun m => m.MType = MigrationType.baseline))
  have hnil_iff :
      sortByVersion
          (discovered.filter (fun m => m.MType = MigrationType.baseline)) = [] ↔
        discovered.filter (fun m => m.MType = MigrationType.baseline) = [] := by
    constructor
    · intro h; rw [h] at hperm; exact List.Perm.eq_nil hperm.symm
    · intro h
      have h2 : (sortByVersion
          (discovered.filter
            (fun m => m.MType = MigrationType.baseline))).length = 0 := by
        rw [hperm.length_eq, h]
        rfl
      exact List.eq_nil_of_length_eq_zero h2
  unfold selectBaseline
  by_cases hcond : (shouldBaselineOf applied bom = true ∧
      sortByVersion
        (discovered.filter (fun m => m.MType = MigrationType.baseline)) ≠ [])
  · rw [if_pos hcond]
    by_cases hbv : bv = "1"
    · subst hbv
      rw [if_pos rfl]
      constructor
      · intro h
        exact absurd h (by
          rw [List.getLast?_eq_getLast_of_ne_nil hcond.2]
          simp)
      · intro h
        rcases h with h | h | h
        · exact absurd hcond.1 (by rw [h]; simp)
        · exact absurd (hnil_iff.mpr h) hcond.2
        · exact absurd rfl h.1
    · rw [if_neg hbv]
      rw [List.find?_eq_none]
      constructor
      · intro h
        refine Or.inr (Or.inr ⟨hbv, ?_⟩)
        intro b hb hbase hver
        have hmemf : b ∈ discovered.filter
            (fun m => m.MType = MigrationType.baseline) :=
          List.mem_filter.mpr ⟨hb, decide_eq_true hbase⟩
        have hmems := hperm.symm.mem_iff.mp hmemf
        exact h b hmems (by simpa using hver)
      · intro h b hbmem hp
        rcases h with h | h | h
        · exact absurd hcond.1 (by rw [h]; simp)
        · exact absurd (hnil_iff.mpr h) hcond.2
        · have hbf := hperm.mem_iff.mp hbmem
          have hbd := List.mem_filter.mp hbf
          exact h.2 b hbd.1 (of_decide_eq_true hbd.2) (by simpa using hp)
  · rw [if_neg hcond]
    simp only [true_iff]
    rcases Decidable.not_and_iff_or_not.mp hcond with h | h
    · left
      cases hsb : shouldBaselineOf applied bom with
      | false => rfl
      | true => exact absurd hsb h
    · right; left
      exact hnil_iff.mp (Decidable.not_not.mp h)

/-- C10: every discovered versioned migration and every discovered
repeatable migration contributes exactly one entry to the status report
(the versioned entries from disk are the ones with a non-null disk
checksum, distinguishing them from `MISSING` entries), whereas a discovered
baseline file appears in the report exactly when one is selected — and no
baseline is selected precisely when `shouldBaseline` is false (non-empty
history or `baselineOnMigrate` off), no baseline file was discovered, or an
explicit baseline version matches no discovered baseline. -/
theorem C10_status_report_contributions (discovered : List ResolvedMigration)
    (applied : List HistoryRecord) (bv : String) (bom ooo : Bool) :
    ((ResolveMigrations discovered applied bv bom ooo).StatusReport.countP
        (fun s => s.MType = MigrationType.versioned ∧ s.DiskChecksum.isSome) =
      discovered.countP (fun m => m.MType = MigrationType.versioned)) ∧
    ((ResolveMigrations discovered applied bv bom ooo).StatusReport.countP
        (fun s => s.MType = MigrationType.repeatable) =
      discovered.countP (fun m => m.MType = MigrationType.repeatable)) ∧
    ((ResolveMigrations discovered applied bv bom ooo).StatusReport.countP
        (fun s => s.MType = MigrationType.baseline) =
      if (selectBaseline
          (sortByVersion
            (discovered.filter (fun m => m.MType = MigrationType.baseline)))
          bv (shouldBaselineOf applied bom)).isSome then 1 else 0) ∧
    (selectBaseline
        (sortByVersion
          (discovered.filter (fun m => m.MType = MigrationType.baseline)))
        bv (shouldBaselineOf applied bom) = none ↔
      (shouldBaselineOf applied bom = false ∨
        discovered.filter (fun m => m.MType = MigrationType.baseline) = [] ∨
        (bv ≠ "1" ∧ ∀ b ∈ discovered, b.MType = MigrationType.baseline →
          b.Version ≠ some bv))) := by
  have hrep : (ResolveMigrations discovered applied bv bom ooo).StatusReport =
      (selectBaseline
          (sortByVersion
            (discovered.filter (fun m => m.MType = MigrationType.baseline)))
          bv (shouldBaselineOf applied bom)).toList.map baselineStatus ++
        (sortByVersion
          (discovered.filter
            (fun m => m.MType = MigrationType.versioned))).map
          (versionedStatus applied (shouldBaselineOf applied bom)
            ((selectBaseline
              (sortByVersion
                (discovered.filter
                  (fun m => m.MType = MigrationType.baseline)))
              bv (shouldBaselineOf applied bom)).bind
                (fun b => b.Version))) ++
        (applied.filter (missingP discovered)).map missingStatus ++
        (discovered.filter (fun m => m.MType = MigrationType.repeatable)).map
          (repeatableStatus applied) := rfl
  have hvlen : (sortByVersion
      (discovered.filter
        (fun m => m.MType = MigrationType.versioned))).length =
      discovered.countP (fun m => m.MType = MigrationType.versioned) := by
    rw [(sortByVersion_perm _).length_eq, List.countP_eq_length_filter]
  have hrlen : (discovered.filter
      (fun m => m.MType = MigrationType.repeatable)).length =
      discovered.countP (fun m => m.MType = MigrationType.repeatable) := by
    rw [List.countP_eq_length_filter]
  refine ⟨?_, ?_, ?_, selectBaseline_eq_none_iff discovered applied bv bom⟩
  · rw [hrep]
    simp only [List.countP_append, List.countP_map]
    rw [List.countP_eq_zero.mpr (fun a _ => by
        cases ha : (selectBaseline
          (sortByVersion
            (discovered.filter (fun m => m.MType = MigrationType.baseline)))
          bv (shouldBaselineOf applied bom)) <;> simp [baselineStatus])]
    rw [List.countP_eq_length.mpr (fun s _ => by
        have hf := versionedStatus_fields applied (shouldBaselineOf applied bom)
          ((selectBaseline
            (sortByVersion
              (discovered.filter (fun m => m.MType = MigrationType.baseline)))
            bv (shouldBaselineOf applied bom)).bind (fun b => b.Version)) s
        simp [Function.comp, hf.1, hf.2])]
    rw [List.countP_eq_zero.mpr (fun r _ => by simp [Function.comp, missingStatus])]
    rw [List.countP_eq_zero.mpr (fun m _ => by
        simp [Function.comp, repeatableStatus_mtype applied m])]
    rw [hvlen]
    omega
  · rw [hrep]
    simp only [List.countP_append, List.countP_map]
    rw [List.countP_eq_zero.mpr (fun a _ => by
        cases (selectBaseline
          (sortByVersion
            (discovered.filter (fun m => m.MType = MigrationType.baseline)))
          bv (shouldBaselineOf applied bom)) <;> simp [baselineStatus])]
    rw [List.countP_eq_zero.mpr (fun s _ => by
        have hf := versionedStatus_fields applied (shouldBaselineOf applied bom)
          ((selectBaseline
            (sortByVersion
              (discovered.filter (fun m => m.MType = MigrationType.baseline)))
            bv (shouldBaselineOf applied bom)).bind (fun b => b.Version)) s
        simp [Function.comp, hf.1])]
    rw [List.countP_eq_zero.mpr (fun r _ => by simp [Function.comp, missingStatus])]
    rw [List.countP_eq_length.mpr (fun m _ => by
        simp [Function.comp, repeatableStatus_mtype applied m])]
    rw [hrlen]
    omega
  · rw [hrep]
    simp only [List.countP_append]
    have hz2 : ((sortByVersion
        (discovered.filter
          (fun m => m.MType = MigrationType.versioned))).map
          (versionedStatus applied (shouldBaselineOf applied bom)
            ((selectBaseline
              (sortByVersion
                (discovered.filter
                  (fun m => m.MType = MigrationType.baseline)))
              bv (shouldBaselineOf applied bom)).bind
                (fun b => b.Version)))).countP
          (fun s => s.MType = MigrationType.baseline) = 0 := by
      apply List.countP_eq_zero.mpr
      intro s hs
      obtain ⟨m, _, rfl⟩ := List.mem_map.mp hs
      have hf := versionedStatus_fields applied (shouldBaselineOf applied bom)
        ((selectBaseline
          (sortByVersion
            (discovered.filter (fun m => m.MType = MigrationType.baseline)))
          bv (shouldBaselineOf applied bom)).bind (fun b => b.Version)) m
      simp [hf.1]
    have hz3 : ((applied.filter (missingP discovered)).map
        missingStatus).countP
          (fun s => s.MType = MigrationType.baseline) = 0 := by
      apply List.countP_eq_zero.mpr
      intro s hs
      obtain ⟨r, _, rfl⟩ := List.mem_map.mp hs
      simp [missingStatus]
    have hz4 : ((discovered.filter
        (fun m => m.MType = MigrationType.repeatable)).map
          (repeatableStatus applied)).countP
          (fun s => s.MType = MigrationType.baseline) = 0 := by
      apply List.countP_eq_zero.mpr
      intro s hs
      obtain ⟨m, _, rfl⟩ := List.mem_map.mp hs
      simp [repeatableStatus_mtype applied m]
    rw [hz2, hz3, hz4]
    cases (selectBaseline
      (sortByVersion
        (discovered.filter (fun m => m.MType = MigrationType.baseline)))
      bv (shouldBaselineOf applied bom)) <;> simp [baselineStatus]

/-- Witness for C1: two baselines on an empty history with
`baselineOnMigrate` on. -/
theorem C1_witness :
    (shouldBaselineOf [] true = true) ∧
      ([mkMig MigrationType.baseline (some "202401010000") "v1",
        mkMig MigrationType.baseline (some "202601122300") "v3"].filter
          (fun m => m.MType = MigrationType.baseline) ≠ []) ∧
      ∃ b : ResolvedMigration,
        b ∈ [mkMig MigrationType.baseline (some "202401010000") "v1",
          mkMig MigrationType.baseline (some "202601122300") "v3"] ∧
        b.MType = MigrationType.baseline ∧
        (∀ m ∈ [mkMig MigrationType.baseline (some "202401010000") "v1",
          mkMig MigrationType.baseline (some "202601122300") "v3"],
          m.MType = MigrationType.baseline →
            strLe (versionKey m) (versionKey b) = true) ∧
        (ResolveMigrations
          [mkMig MigrationType.baseline (some "202401010000") "v1",
            mkMig MigrationType.baseline (some "202601122300") "v3"]
          [] "1" true false).PendingMigrations.head? = some b ∧
        (ResolveMigrations
          [mkMig MigrationType.baseline (some "202401010000") "v1",
            mkMig MigrationType.baseline (some "202601122300") "v3"]
          [] "1" true false).StatusReport.head? = some (baselineStatus b) ∧
        (baselineStatus b).State = MigrationState.PENDING :=
  ⟨by decide, by decide,
    C1_auto_baseline_selects_highest _ _ true false (by decide) (by decide)⟩

/-!
## Executor — core/skyway (src/unnamed/part_012) and the history-table
manager (src/unnamed/part_009)

The database is modelled as the application data (an abstract type `α`
acted on by a batch oracle `be : α → List Char → Option α`, where `none` is
a batch failure — `request.batch(batch.SQL)` throwing) together with the
history-table rows.  Transactions follow the source's control flow: the
per-run mode works on a private working state and publishes it on commit,
returning the pre-run state on rollback; the per-migration mode publishes
after each successful migration.  Wall-clock execution times and server
timestamps are modelled as 0.
-/

/-- The database state: application data plus the history table. -/
structure DBState (α : Type) where
  data : α
  history : List HistoryRecord

/-- `GetNextRank` — `SELECT ISNULL(MAX([installed_rank]), -1) + 1`. -/
def GetNextRank (h : List HistoryRecord) : Int :=
  (h.foldl (fun acc r => max acc r.InstalledRank) (-1)) + 1

/-- `resolveHistoryType` — `baseline → SQL_BASELINE`, others → `SQL`. -/
def resolveHistoryType (m : ResolvedMigration) : HistoryType :=
  match m.MType with
  | .baseline => .SQL_BASELINE
  | .versioned => .SQL
  | .repeatable => .SQL

/-- `InsertAppliedMigration` — the row inserted for a successfully applied
migration: `success = true`, type derived from the migration type, the
migration's script path and (possibly recomputed) checksum. -/
def makeAppliedRow (m : ResolvedMigration) (rank : Int) (user : String) :
    HistoryRecord :=
  ⟨rank, m.Version, m.Description, resolveHistoryType m, m.ScriptPath,
    some m.Checksum, user, 0, 0, true⟩

/-- One batch executed `RepeatCount` times
(`for (repeat …) await request.batch(batch.SQL)`); a failure aborts. -/
def execRepeat (be : α → List Char → Option α) (s : List Char) :
    Nat → α → Option α
  | 0, d => some d
  | n + 1, d =>
    match be d s with
    | some d2 => execRepeat be s n d2
    | none => none

/-- The batch loop of `executeSingleWithinTransaction`. -/
def execBatches (be : α → List Char → Option α) :
    List SQLBatch → α → Option α
  | [], d => some d
  | b :: bs, d =>
    match execRepeat be b.SQL b.RepeatCount d with
    | some d2 => execBatches be bs d2
    | none => none

/-- `executeSingleWithinTransaction` — substitute placeholders with the
migration's filename added to the context, recompute a repeatable
migration's checksum over the substituted body (versioned and baseline
migrations keep the resolve-time checksum), split on GO, and execute the
batches.  Returns the success flag, the data state reached, and the
migration carrying the checksum that the history row will record. -/
def executeSingleWithinTransaction (be : α → List Char → Option α)
    (placeholders : List (String × String)) (baseCtx : PlaceholderContext)
    (d : α) (m : ResolvedMigration) : Bool × α × ResolvedMigration :=
  let context := { baseCtx with Filename := some m.Filename }
  let processedSQL := SubstitutePlaceholders m.SQL.data placeholders context
  let m2 := if m.MType = MigrationType.repeatable then
      { m with Checksum := ComputeChecksum processedSQL }
    else m
  match execBatches be (SplitOnGO processedSQL) d with
  | some d2 => (true, d2, m2)
  | none => (false, d, m2)

/-- The loop of `executePerRunWithHistory`: working data `d`, working
history `h`, the rank counter, the remaining migrations.  `σ0` is the
database state at `transaction.begin()`; the first failure rolls the whole
transaction back, so the loop returns `σ0` unchanged; when the list is
exhausted the transaction commits the working state. -/
def perRunGo (be : α → List Char → Option α)
    (placeholders : List (String × String)) (baseCtx : PlaceholderContext)
    (user : String) (σ0 : DBState α) :
    α → List HistoryRecord → Int → List ResolvedMigration →
      DBState α × List Bool
  | d, h, _, [] => (⟨d, h⟩, [])
  | d, h, rank, m :: rest =>
    match executeSingleWithinTransaction be placeholders baseCtx d m with
    | (true, d2, m2) =>
      let p := perRunGo be placeholders baseCtx user σ0 d2
        (h ++ [makeAppliedRow m2 rank user]) (rank + 1) rest
      (p.1, true :: p.2)
    | (false, _, _) => (σ0, [false])

/-- `executePerRunWithHistory` — one transaction around the whole run: the
rank counter is read once (`GetNextRank` inside the transaction, before any
insert) and incremented per success; each success inserts its history row
within the transaction; on the first failure everything (history inserts
included) is rolled back; on all-success the transaction commits. -/
def executePerRunWithHistory (be : α → List Char → Option α)
    (placeholders : List (String × String)) (baseCtx : PlaceholderContext)
    (user : String) (σ0 : DBState α) (ms : List ResolvedMigration) :
    DBState α × List Bool :=
  perRunGo be placeholders baseCtx user σ0 σ0.data σ0.history
    (GetNextRank σ0.history) ms

/-- The history rows the per-run loop inserts along the all-success path,
with the data evolution and the rank increments. -/
def perRunRows (be : α → List Char → Option α)
    (placeholders : List (String × String)) (baseCtx : PlaceholderContext)
    (user : String) : α → Int → List ResolvedMigration →
      List HistoryRecord
  | _, _, [] => []
  | d, rank, m :: rest =>
    match executeSingleWithinTransaction be placeholders baseCtx d m with
    | (_, d2, m2) =>
      makeAppliedRow m2 rank user ::
        perRunRows be placeholders baseCtx user d2 (rank + 1) rest

/-- The data state at the end of the all-success path. -/
def perRunFinalData (be : α → List Char → Option α)
    (placeholders : List (String × String)) (baseCtx : PlaceholderContext) :
    α → List ResolvedMigration → α
  | d, [] => d
  | d, m :: rest =>
    perRunFinalData be placeholders baseCtx
      (executeSingleWithinTransaction be placeholders baseCtx d m).2.1 rest

/-- `executePerMigrationWithHistory` — a fresh transaction per migration:
on success the migration's data changes and its history row (rank read by
`GetNextRank` inside that transaction) are committed together; on failure
that transaction alone is rolled back and the run stops, with the earlier
commits retained. -/
def executePerMigrationWithHistory (be : α → List Char → Option α)
    (placeholders : List (String × String)) (baseCtx : PlaceholderContext)
    (user : String) : DBState α → List ResolvedMigration →
      DBState α × List Bool
  | σ, [] => (σ, [])
  | σ, m :: rest =>
    match executeSingleWithinTransaction be placeholders baseCtx σ.data m with
    | (true, d2, m2) =>
      let p := executePerMigrationWithHistory be placeholders baseCtx user
        ⟨d2, σ.history ++ [makeAppliedRow m2 (GetNextRank σ.history) user]⟩
        rest
      (p.1, true :: p.2)
    | (false, _, _) => (σ, [false])

/-- The committed state after one successfully applied migration in its own
transaction (the success branch of the per-migration loop). -/
def commitStep (be : α → List Char → Option α)
    (placeholders : List (String × String)) (baseCtx : PlaceholderContext)
    (user : String) (σ : DBState α) (m : ResolvedMigration) : DBState α :=
  match executeSingleWithinTransaction be placeholders baseCtx σ.data m with
  | (_, d2, m2) =>
    ⟨d2, σ.history ++ [makeAppliedRow m2 (GetNextRank σ.history) user]⟩

/-- Whether a migration succeeds against the given committed state. -/
def stepOk (be : α → List Char → Option α)
    (placeholders : List (String × String)) (baseCtx : PlaceholderContext)
    (σ : DBState α) (m : ResolvedMigration) : Bool :=
  (executeSingleWithinTransaction be placeholders baseCtx σ.data m).1

/-- The checksum the executor records for a migration: a repeatable
migration's checksum is recomputed over the placeholder-substituted body
(with the filename added to the context); versioned and baseline
migrations record the checksum computed at resolve time. -/
def expectedChecksum (placeholders : List (String × String))
    (baseCtx : PlaceholderContext) (m : ResolvedMigration) : Int :=
  if m.MType = MigrationType.repeatable then
    ComputeChecksum (SubstitutePlaceholders m.SQL.data placeholders
      { baseCtx with Filename := some m.Filename })
  else m.Checksum

theorem executeSingle_migration (be : α → List Char → Option α)
    (placeholders : List (String × String)) (baseCtx : PlaceholderContext)
    (d : α) (m : ResolvedMigration) :
    (executeSingleWithinTransaction be placeholders baseCtx d m).2.2 =
      if m.MType = MigrationType.repeatable then
        { m with Checksum := ComputeChecksum (SubstitutePlaceholders
            m.SQL.data placeholders
            { baseCtx with Filename := some m.Filename }) }
      else m := by
  unfold executeSingleWithinTransaction
  cases hb : execBatches be (SplitOnGO (SubstitutePlaceholders m.SQL.data
    placeholders { baseCtx with Filename := some m.Filename })) d <;>
    simp [hb]

theorem perRunGo_spec (be : α → List Char → Option α)
    (placeholders : List (String × String)) (baseCtx : PlaceholderContext)
    (user : String) (σ0 : DBState α) :
    ∀ (ms : List ResolvedMigration) (d : α) (h : List HistoryRecord)
      (rank : Int),
      ((perRunGo be placeholders baseCtx user σ0 d h rank ms).2.contains
          false = true →
        (perRunGo be placeholders baseCtx user σ0 d h rank ms).1 = σ0) ∧
      ((perRunGo be placeholders baseCtx user σ0 d h rank ms).2.contains
          false = false →
        (perRunGo be placeholders baseCtx user σ0 d h rank ms).1 =
            ⟨perRunFinalData be placeholders baseCtx d ms,
              h ++ perRunRows be placeholders baseCtx user d rank ms⟩ ∧
          (perRunGo be placeholders baseCtx user σ0 d h rank ms).2 =
            List.replicate ms.length true) := by
  intro ms
  induction ms with
  | nil =>
    intro d h rank
    constructor
    · intro hc
      exact absurd hc (by simp [perRunGo])
    · intro _
      exact ⟨by simp [perRunGo, perRunRows, perRunFinalData], by
        simp [perRunGo]⟩
  | cons m rest ih =>
    intro d h rank
    rcases hex : executeSingleWithinTransaction be placeholders baseCtx d m
      with ⟨ok, d2, m2⟩
    cases ok
    · constructor
      · intro _
        simp [perRunGo, hex]
      · intro hc
        exact absurd hc (by simp [perRunGo, hex])
    · have hgo : perRunGo be placeholders baseCtx user σ0 d h rank
          (m :: rest) =
          ((perRunGo be placeholders baseCtx user σ0 d2
            (h ++ [makeAppliedRow m2 rank user]) (rank + 1) rest).1,
            true :: (perRunGo be placeholders baseCtx user σ0 d2
              (h ++ [makeAppliedRow m2 rank user]) (rank + 1) rest).2) := by
        simp [perRunGo, hex]
      constructor
      · intro hc
        rw [hgo] at hc ⊢
        simp only [List.contains_cons, Bool.or_eq_true, beq_iff_eq] at hc
        rcases hc with hc | hc
        · exact absurd hc (by simp)
        · exact (ih d2 (h ++ [makeAppliedRow m2 rank user]) (rank + 1)).1 hc
      · intro hc
        rw [hgo] at hc ⊢
        simp only [List.contains_cons, Bool.or_eq_false_iff] at hc
        obtain ⟨h1, h2⟩ :=
          (ih d2 (h ++ [makeAppliedRow m2 rank user]) (rank + 1)).2 hc.2
        constructor
        · rw [h1]
          have hdata : perRunFinalData be placeholders baseCtx d (m :: rest) =
              perRunFinalData be placeholders baseCtx d2 rest := by
            simp [perRunFinalData, hex]
          have hrows : perRunRows be placeholders baseCtx user d rank
              (m :: rest) =
              makeAppliedRow m2 rank user ::
                perRunRows be placeholders baseCtx user d2 (rank + 1) rest := by
            simp [perRunRows, hex]
          rw [hdata, hrows, List.append_assoc]
          rfl
        · rw [h2]
          simp [List.replicate_succ]

theorem perRunRows_length (be : α → List Char → Option α)
    (placeholders : List (String × String)) (baseCtx : PlaceholderContext)
    (user : String) :
    ∀ (ms : List ResolvedMigration) (d : α) (rank : Int),
      (perRunRows be placeholders baseCtx user d rank ms).length =
        ms.length := by
  intro ms
  induction ms with
  | nil => intro d rank; rfl
  | cons m rest ih =>
    intro d rank
    rcases hex : executeSingleWithinTransaction be placeholders baseCtx d m
      with ⟨ok, d2, m2⟩
    simp [perRunRows, hex, ih]

theorem perRunRows_forall2 (be : α → List Char → Option α)
    (placeholders : List (String × String)) (baseCtx : PlaceholderContext)
    (user : String) :
    ∀ (ms : List ResolvedMigration) (d : α) (rank : Int),
      List.Forall₂
        (fun r m_1 => r.Checksum =
            some (expectedChecksum placeholders baseCtx m_1) ∧
          r.HType = resolveHistoryType m_1 ∧ r.Success = true)
        (perRunRows be placeholders baseCtx user d rank ms) ms := by
  intro ms
  induction ms with
  | nil => intro d rank; exact List.Forall₂.nil
  | cons m rest ih =>
    intro d rank
    rcases hex : executeSingleWithinTransaction be placeholders baseCtx d m
      with ⟨ok, d2, m2⟩
    have hm2 : m2 = if m.MType = MigrationType.repeatable then
        { m with Checksum := ComputeChecksum (SubstitutePlaceholders
            m.SQL.data placeholders
            { baseCtx with Filename := some m.Filename }) }
      else m := by
      have := executeSingle_migration be placeholders baseCtx d m
      rw [hex] at this
      exact this
    have hrows : perRunRows be placeholders baseCtx user d rank (m :: rest) =
        makeAppliedRow m2 rank user ::
          perRunRows be placeholders baseCtx user d2 (rank + 1) rest := by
      simp [perRunRows, hex]
    rw [hrows]
    refine List.Forall₂.cons ⟨?_, ?_, rfl⟩ (ih d2 (rank + 1))
    · rw [hm2]
      by_cases hrep : m.MType = MigrationType.repeatable <;>
        simp [makeAppliedRow, expectedChecksum, hrep]
    · rw [hm2]
      by_cases hrep : m.MType = MigrationType.repeatable <;>
        simp [makeAppliedRow, resolveHistoryType, hrep]

theorem perRunRows_rank_lb (be : α → List Char → Option α)
    (placeholders : List (String × String)) (baseCtx : PlaceholderContext)
    (user : String) :
    ∀ (ms : List ResolvedMigration) (d : α) (rank : Int),
      ∀ r ∈ perRunRows be placeholders baseCtx user d rank ms,
        rank ≤ r.InstalledRank := by
  intro ms
  induction ms with
  | nil => intro d rank r hr; exact absurd hr (by simp [perRunRows])
  | cons m rest ih =>
    intro d rank r hr
    rcases hex : executeSingleWithinTransaction be placeholders baseCtx d m
      with ⟨ok, d2, m2⟩
    rw [show perRunRows be placeholders baseCtx user d rank (m :: rest) =
        makeAppliedRow m2 rank user ::
          perRunRows be placeholders baseCtx user d2 (rank + 1) rest from by
      simp [perRunRows, hex]] at hr
    rcases List.mem_cons.mp hr with hr | hr
    · rw [hr]
      simp [makeAppliedRow]
    · exact le_trans (by omega) (ih d2 (rank + 1) r hr)

theorem perRunRows_rank_pairwise (be : α → List Char → Option α)
    (placeholders : List (String × String)) (baseCtx : PlaceholderContext)
    (user : String) :
    ∀ (ms : List ResolvedMigration) (d : α) (rank : Int),
      List.Pairwise (fun a b => a.InstalledRank < b.InstalledRank)
        (perRunRows be placeholders baseCtx user d rank ms) := by
  intro ms
  induction ms with
  | nil => intro d rank; exact List.Pairwise.nil
  | cons m rest ih =>
    intro d rank
    rcases hex : executeSingleWithinTransaction be placeholders baseCtx d m
      with ⟨ok, d2, m2⟩
    rw [show perRunRows be placeholders baseCtx user d rank (m :: rest) =
        makeAppliedRow m2 rank user ::
          perRunRows be placeholders baseCtx user d2 (rank + 1) rest from by
      simp [perRunRows, hex]]
    refine List.Pairwise.cons ?_ (ih d2 (rank + 1))
    intro r hr
    have := perRunRows_rank_lb be placeholders baseCtx user rest d2 (rank + 1)
      r hr
    show (makeAppliedRow m2 rank user).InstalledRank < r.InstalledRank
    simp only [makeAppliedRow]
    omega

theorem perRunRows_success (be : α → List Char → Option α)
    (placeholders : List (String × String)) (baseCtx : PlaceholderContext)
    (user : String) :
    ∀ (ms : List ResolvedMigration) (d : α) (rank : Int),
      ∀ r ∈ perRunRows be placeholders baseCtx user d rank ms,
        r.Success = true := by
  intro ms
  induction ms with
  | nil => intro d rank r hr; exact absurd hr (by simp [perRunRows])
  | cons m rest ih =>
    intro d rank r hr
    rcases hex : executeSingleWithinTransaction be placeholders baseCtx d m
      with ⟨ok, d2, m2⟩
    rw [show perRunRows be placeholders baseCtx user d rank (m :: rest) =
        makeAppliedRow m2 rank user ::
          perRunRows be placeholders baseCtx user d2 (rank + 1) rest from by
      simp [perRunRows, hex]] at hr
    rcases List.mem_cons.mp hr with hr | hr
    · rw [hr]
      rfl
    · exact ih d2 (rank + 1) r hr

theorem foldl_max_init_le :
    ∀ (l : List HistoryRecord) (init : Int),
      init ≤ l.foldl (fun acc r => max acc r.InstalledRank) init := by
  intro l
  induction l with
  | nil => intro init; exact le_refl _
  | cons r rest ih =>
    intro init
    exact le_trans (le_max_left _ _) (ih (max init r.InstalledRank))

theorem mem_lt_getNextRank (h : List HistoryRecord) :
    ∀ r ∈ h, r.InstalledRank < GetNextRank h := by
  unfold GetNextRank
  suffices hs : ∀ (l : List HistoryRecord) (init : Int), ∀ r ∈ l,
      r.InstalledRank ≤ l.foldl (fun acc r => max acc r.InstalledRank) init by
    intro r hr
    have := hs h (-1) r hr
    omega
  intro l
  induction l with
  | nil => intro init r hr; exact absurd hr (by simp)
  | cons x xs ih =>
    intro init r hr
    rcases List.mem_cons.mp hr with hr | hr
    · rw [hr]
      exact le_trans (le_max_right _ _) (foldl_max_init_le _ _)
    · exact ih (max init x.InstalledRank) r hr

/-- C2: in per-run mode, a run in which some pending migration fails rolls
the whole transaction back — the returned database state is exactly the
pre-run state, so zero history rows added by this run remain visible —
while a run in which every pending migration succeeds commits, appending
exactly one `success = true` history row per migration. -/
theorem C2_per_run_rollback_or_commit (be : α → List Char → Option α)
    (placeholders : List (String × String)) (baseCtx : PlaceholderContext)
    (user : String) (σ0 : DBState α) (ms : List ResolvedMigration) :
    ((executePerRunWithHistory be placeholders baseCtx user σ0 ms).2.contains
        false = true →
      (executePerRunWithHistory be placeholders baseCtx user σ0 ms).1 = σ0) ∧
    ((executePerRunWithHistory be placeholders baseCtx user σ0 ms).2.contains
        false = false →
      (executePerRunWithHistory be placeholders baseCtx user σ0
            ms).1.history =
          σ0.history ++ perRunRows be placeholders baseCtx user σ0.data
            (GetNextRank σ0.history) ms ∧
        (perRunRows be placeholders baseCtx user σ0.data
          (GetNextRank σ0.history) ms).length = ms.length ∧
        (∀ r ∈ perRunRows be placeholders baseCtx user σ0.data
          (GetNextRank σ0.history) ms, r.Success = true) ∧
        (executePerRunWithHistory be placeholders baseCtx user σ0 ms).2 =
          List.replicate ms.length true) := by
  simp only [executePerRunWithHistory]
  have hspec := perRunGo_spec be placeholders baseCtx user σ0 ms σ0.data
    σ0.history (GetNextRank σ0.history)
  constructor
  · exact fun hc => hspec.1 hc
  · intro hc
    obtain ⟨h1, h2⟩ := hspec.2 hc
    exact ⟨by rw [h1], perRunRows_length be placeholders baseCtx user ms
        σ0.data (GetNextRank σ0.history),
      perRunRows_success be placeholders baseCtx user ms σ0.data
        (GetNextRank σ0.history), h2⟩

/-- Witness for C2: a run whose second migration fails (its batch raises)
is rolled back wholesale; a run of one succeeding migration commits. -/
theorem C2_witness :
    ((executePerRunWithHistory
        (fun (n : Nat) s => if s = ("FAIL").data then none else some (n + 1))
        [] ⟨"dbo", "t", none, none, none, none⟩ "sa" ⟨0, []⟩
        [⟨MigrationType.versioned, some "1", "ok", "V1__ok.sql",
            "V1__ok.sql", "SELECT 1", 1⟩,
          ⟨MigrationType.versioned, some "2", "bad", "V2__bad.sql",
            "V2__bad.sql", "FAIL", 2⟩]).2.contains false = true) ∧
      (executePerRunWithHistory
        (fun (n : Nat) s => if s = ("FAIL").data then none else some (n + 1))
        [] ⟨"dbo", "t", none, none, none, none⟩ "sa" ⟨0, []⟩
        [⟨MigrationType.versioned, some "1", "ok", "V1__ok.sql",
            "V1__ok.sql", "SELECT 1", 1⟩,
          ⟨MigrationType.versioned, some "2", "bad", "V2__bad.sql",
            "V2__bad.sql", "FAIL", 2⟩]).1 = ⟨0, []⟩ ∧
      ((executePerRunWithHistory
        (fun (n : Nat) s => if s = ("FAIL").data then none else some (n + 1))
        [] ⟨"dbo", "t", none, none, none, none⟩ "sa" ⟨0, []⟩
        [⟨MigrationType.versioned, some "1", "ok", "V1__ok.sql",
            "V1__ok.sql", "SELECT 1", 1⟩]).2.contains false = false) ∧
      (executePerRunWithHistory
        (fun (n : Nat) s => if s = ("FAIL").data then none else some (n + 1))
        [] ⟨"dbo", "t", none, none, none, none⟩ "sa" ⟨0, []⟩
        [⟨MigrationType.versioned, some "1", "ok", "V1__ok.sql",
            "V1__ok.sql", "SELECT 1", 1⟩]).1.history =
        [] ++ perRunRows
          (fun (n : Nat) s => if s = ("FAIL").data then none else some (n + 1))
          [] ⟨"dbo", "t", none, none, none, none⟩ "sa" 0 (GetNextRank [])
          [⟨MigrationType.versioned, some "1", "ok", "V1__ok.sql",
            "V1__ok.sql", "SELECT 1", 1⟩] :=
  ⟨by decide,
    (C2_per_run_rollback_or_commit _ _ _ _ _ _).1 (by decide),
    by decide,
    ((C2_per_run_rollback_or_commit _ _ _ _ _ _).2 (by decide)).1⟩

/-- C5: on a per-run execution where every migration succeeds, the history
rows added by the run record, migration by migration, a checksum equal to
`ComputeChecksum` of the placeholder-substituted body for repeatable
migrations and the resolve-time checksum for versioned and baseline
migrations (whose history type is `SQL`/`SQL_BASELINE`). -/
theorem C5_recorded_checksums (be : α → List Char → Option α)
    (placeholders : List (String × String)) (baseCtx : PlaceholderContext)
    (user : String) (σ0 : DBState α) (ms : List ResolvedMigration)
    (h : (executePerRunWithHistory be placeholders baseCtx user σ0
      ms).2.contains false = false) :
    List.Forall₂
      (fun row m => row.Checksum =
          some (expectedChecksum placeholders baseCtx m) ∧
        row.HType = resolveHistoryType m ∧ row.Success = true)
      ((executePerRunWithHistory be placeholders baseCtx user σ0
        ms).1.history.drop σ0.history.length) ms := by
  simp only [executePerRunWithHistory] at h ⊢
  have hspec := (perRunGo_spec be placeholders baseCtx user σ0 ms σ0.data
    σ0.history (GetNextRank σ0.history)).2 h
  rw [hspec.1]
  show ((σ0.history ++ perRunRows be placeholders baseCtx user σ0.data
      (GetNextRank σ0.history) ms).drop σ0.history.length).Forall₂ _ ms
  rw [List.drop_left]
  exact perRunRows_forall2 be placeholders baseCtx user ms σ0.data
    (GetNextRank σ0.history)

/-- Witness for C5: a repeatable migration whose body is re-checksummed
after substitution. -/
theorem C5_witness :
    ((executePerRunWithHistory (fun (n : Nat) _ => some (n + 1))
        [] ⟨"dbo", "t", none, none, none, none⟩ "sa" ⟨0, []⟩
        [⟨MigrationType.repeatable, none, "X", "R__X.sql", "R__X.sql",
          "SELECT 1", 0⟩]).2.contains false = false) ∧
      List.Forall₂
        (fun row m => row.Checksum =
            some (expectedChecksum [] ⟨"dbo", "t", none, none, none, none⟩ m) ∧
          row.HType = resolveHistoryType m ∧ row.Success = true)
        ((executePerRunWithHistory (fun (n : Nat) _ => some (n + 1))
          [] ⟨"dbo", "t", none, none, none, none⟩ "sa" ⟨0, []⟩
          [⟨MigrationType.repeatable, none, "X", "R__X.sql", "R__X.sql",
            "SELECT 1", 0⟩]).1.history.drop ([] : List HistoryRecord).length)
        [⟨MigrationType.repeatable, none, "X", "R__X.sql", "R__X.sql",
          "SELECT 1", 0⟩] :=
  ⟨by decide,
    C5_recorded_checksums (fun (n : Nat) _ => some (n + 1)) []
      ⟨"dbo", "t", none, none, none, none⟩ "sa" ⟨0, []⟩
      [⟨MigrationType.repeatable, none, "X", "R__X.sql", "R__X.sql",
        "SELECT 1", 0⟩] (by decide)⟩

/-- C9: `GetNextRank` is max(installed_rank)+1 and 0 on an empty table;
every row inserted by a per-run execution is assigned a rank strictly
greater than all ranks present when the run's rank counter was read; the
inserted rows carry strictly increasing ranks; and a history whose ranks
were strictly increasing in insertion order keeps that invariant after the
run. -/
theorem C9_installed_rank_monotone (be : α → List Char → Option α)
    (placeholders : List (String × String)) (baseCtx : PlaceholderContext)
    (user : String) (σ0 : DBState α) (ms : List ResolvedMigration) :
    GetNextRank [] = 0 ∧
    (∀ h : List HistoryRecord, ∀ r ∈ h,
      r.InstalledRank < GetNextRank h) ∧
    (∀ row ∈ (executePerRunWithHistory be placeholders baseCtx user σ0
        ms).1.history.drop σ0.history.length,
      ∀ r0 ∈ σ0.history, r0.InstalledRank < row.InstalledRank) ∧
    List.Pairwise (fun a b => a.InstalledRank < b.InstalledRank)
      ((executePerRunWithHistory be placeholders baseCtx user σ0
        ms).1.history.drop σ0.history.length) ∧
    (List.Pairwise (fun a b => a.InstalledRank < b.InstalledRank)
        σ0.history →
      List.Pairwise (fun a b => a.InstalledRank < b.InstalledRank)
        (executePerRunWithHistory be placeholders baseCtx user σ0
          ms).1.history) := by
  have hspec := perRunGo_spec be placeholders baseCtx user σ0 ms σ0.data
    σ0.history (GetNextRank σ0.history)
  refine ⟨by decide, mem_lt_getNextRank, ?_⟩
  simp only [executePerRunWithHistory]
  by_cases hc : (perRunGo be placeholders baseCtx user σ0 σ0.data σ0.history
      (GetNextRank σ0.history) ms).2.contains false = true
  · have h1 := hspec.1 hc
    rw [h1, List.drop_length]
    exact ⟨by simp, List.Pairwise.nil, fun hp => hp⟩
  · simp only [Bool.not_eq_true] at hc
    obtain ⟨h1, _⟩ := hspec.2 hc
    have hhist : (perRunGo be placeholders baseCtx user σ0 σ0.data σ0.history
        (GetNextRank σ0.history) ms).1.history =
        σ0.history ++ perRunRows be placeholders baseCtx
        user σ0.data (GetNextRank σ0.history) ms := by rw [h1]
    have hdrop : ((perRunGo be placeholders baseCtx user σ0 σ0.data σ0.history
        (GetNextRank σ0.history) ms).1.history).drop σ0.history.length =
        perRunRows be placeholders
        baseCtx user σ0.data (GetNextRank σ0.history) ms := by
      rw [hhist, List.drop_left]
    have hcross : ∀ row ∈ perRunRows be placeholders baseCtx user σ0.data
        (GetNextRank σ0.history) ms, ∀ r0 ∈ σ0.history,
        r0.InstalledRank < row.InstalledRank := by
      intro row hrow r0 hr0
      exact lt_of_lt_of_le (mem_lt_getNextRank σ0.history r0 hr0)
        (perRunRows_rank_lb be placeholders baseCtx user ms σ0.data
          (GetNextRank σ0.history) row hrow)
    refine ⟨?_, ?_, ?_⟩
    · rw [hdrop]
      exact hcross
    · rw [hdrop]
      exact perRunRows_rank_pairwise be placeholders baseCtx user ms σ0.data
        (GetNextRank σ0.history)
    · intro hp
      rw [hhist]
      exact List.pairwise_append.mpr
        ⟨hp, perRunRows_rank_pairwise be placeholders baseCtx user ms
          σ0.data (GetNextRank σ0.history),
          fun a ha b hb => hcross b hb a ha⟩

/-- C8: in per-migration mode each pending migration runs in its own fresh
transaction: if migrations `0..i-1` succeed against the successively
committed states and migration `i` fails, the run returns exactly the
state committed after migrations `0..i-1` — migration `i`'s transaction is
rolled back leaving no trace, no later migration is attempted, and the
earlier migrations' data changes and history rows remain committed. -/
theorem C8_per_migration_isolation (be : α → List Char → Option α)
    (placeholders : List (String × String)) (baseCtx : PlaceholderContext)
    (user : String) :
    ∀ (i : Nat) (ms : List ResolvedMigration) (σ0 : DBState α)
      (hi : i < ms.length),
      (∀ j (hj : j < i),
        stepOk be placeholders baseCtx
          (List.foldl (commitStep be placeholders baseCtx user) σ0
            (ms.take j)) (ms.get ⟨j, Nat.lt_trans hj hi⟩) = true) →
      stepOk be placeholders baseCtx
        (List.foldl (commitStep be placeholders baseCtx user) σ0
          (ms.take i)) (ms.get ⟨i, hi⟩) = false →
      executePerMigrationWithHistory be placeholders baseCtx user σ0 ms =
        (List.foldl (commitStep be placeholders baseCtx user) σ0
          (ms.take i), List.replicate i true ++ [false]) := by
  intro i
  induction i with
  | zero =>
    intro ms σ0 hi hprev hfail
    cases ms with
    | nil => exact absurd hi (by simp)
    | cons m rest =>
      rcases hex : executeSingleWithinTransaction be placeholders baseCtx
        σ0.data m with ⟨ok, d2, m2⟩
      have hok : ok = false := by
        have hfail2 : (executeSingleWithinTransaction be placeholders baseCtx
            σ0.data m).1 = false := hfail
        rw [hex] at hfail2
        exact hfail2
      subst hok
      simp [executePerMigrationWithHistory, hex]
  | succ i ih =>
    intro ms σ0 hi hprev hfail
    cases ms with
    | nil => exact absurd hi (by simp)
    | cons m rest =>
      have hm : stepOk be placeholders baseCtx σ0 m = true :=
        hprev 0 (Nat.succ_pos i)
      rcases hex : executeSingleWithinTransaction be placeholders baseCtx
        σ0.data m with ⟨ok, d2, m2⟩
      have hok : ok = true := by
        simp only [stepOk] at hm
        rw [hex] at hm
        exact hm
      subst hok
      have hcommit : commitStep be placeholders baseCtx user σ0 m =
          ⟨d2, σ0.history ++
            [makeAppliedRow m2 (GetNextRank σ0.history) user]⟩ := by
        simp [commitStep, hex]
      have hi2 : i < rest.length := Nat.lt_of_succ_lt_succ hi
      have hrec := ih rest (commitStep be placeholders baseCtx user σ0 m) hi2
        (fun j hj => hprev (j + 1) (Nat.succ_lt_succ hj))
        hfail
      have hrun : executePerMigrationWithHistory be placeholders baseCtx
          user σ0 (m :: rest) =
          ((executePerMigrationWithHistory be placeholders baseCtx user
            (commitStep be placeholders baseCtx user σ0 m) rest).1,
            true :: (executePerMigrationWithHistory be placeholders baseCtx
              user (commitStep be placeholders baseCtx user σ0 m)
              rest).2) := by
        rw [hcommit]
        simp [executePerMigrationWithHistory, hex]
      rw [hrun, hrec]
      simp [List.take_succ_cons, List.replicate_succ]

/-- Witness for C8: migration 0 succeeds and stays committed, migration 1
fails and only its own transaction is rolled back. -/
theorem C8_witness :
    executePerMigrationWithHistory
        (fun (n : Nat) s => if s = ("FAIL").data then none else some (n + 1))
        [] ⟨"dbo", "t", none, none, none, none⟩ "sa" ⟨0, []⟩
        [⟨MigrationType.versioned, some "1", "ok", "V1__ok.sql",
            "V1__ok.sql", "SELECT 1", 1⟩,
          ⟨MigrationType.versioned, some "2", "bad", "V2__bad.sql",
            "V2__bad.sql", "FAIL", 2⟩] =
      (List.foldl
        (commitStep
          (fun (n : Nat) s => if s = ("FAIL").data then none else some (n + 1))
          [] ⟨"dbo", "t", none, none, none, none⟩ "sa") ⟨0, []⟩
        ([⟨MigrationType.versioned, some "1", "ok", "V1__ok.sql",
            "V1__ok.sql", "SELECT 1", 1⟩,
          ⟨MigrationType.versioned, some "2", "bad", "V2__bad.sql",
            "V2__bad.sql", "FAIL", 2⟩].take 1),
        List.replicate 1 true ++ [false]) :=
  C8_per_migration_isolation
    (fun (n : Nat) s => if s = ("FAIL").data then none else some (n + 1))
    [] ⟨"dbo", "t", none, none, none, none⟩ "sa" 1
    [⟨MigrationType.versioned, some "1", "ok", "V1__ok.sql",
        "V1__ok.sql", "SELECT 1", 1⟩,
      ⟨MigrationType.versioned, some "2", "bad", "V2__bad.sql",
        "V2__bad.sql", "FAIL", 2⟩] ⟨0, []⟩ (by decide)
    (fun j hj => by
      have hj0 : j = 0 := by omega
      subst hj0
      have hok1 : stepOk
          (fun (n : Nat) s => if s = ("FAIL").data then none else some (n + 1))
          [] ⟨"dbo", "t", none, none, none, none⟩ ⟨0, []⟩
          ⟨MigrationType.versioned, some "1", "ok", "V1__ok.sql",
            "V1__ok.sql", "SELECT 1", 1⟩ = true := by decide
      exact hok1)
    (by
      have hbad : stepOk
          (fun (n : Nat) s => if s = ("FAIL").data then none else some (n + 1))
          [] ⟨"dbo", "t", none, none, none, none⟩
          (commitStep
            (fun (n : Nat) s =>
              if s = ("FAIL").data then none else some (n + 1))
            [] ⟨"dbo", "t", none, none, none, none⟩ "sa" ⟨0, []⟩
            ⟨MigrationType.versioned, some "1", "ok", "V1__ok.sql",
              "V1__ok.sql", "SELECT 1", 1⟩)
          ⟨MigrationType.versioned, some "2", "bad", "V2__bad.sql",
            "V2__bad.sql", "FAIL", 2⟩ = false := by decide
      exact hbad)

/-- Witness for C9: a one-row history and a one-migration run on an empty
history. -/
theorem C9_witness :
    ((⟨0, none, "m", HistoryType.SCHEMA, "s", none, "sa", 0, 0,
        true⟩ : HistoryRecord).InstalledRank <
      GetNextRank [⟨0, none, "m", HistoryType.SCHEMA, "s", none, "sa", 0, 0,
        true⟩]) ∧
      List.Pairwise (fun a b => a.InstalledRank < b.InstalledRank)
        ((executePerRunWithHistory (fun (n : Nat) _ => some (n + 1))
          [] ⟨"dbo", "t", none, none, none, none⟩ "sa" ⟨0, []⟩
          [⟨MigrationType.versioned, some "1", "ok", "V1__ok.sql",
            "V1__ok.sql", "SELECT 1", 1⟩]).1.history) :=
  ⟨(C9_installed_rank_monotone (fun (n : Nat) _ => some (n + 1)) []
      ⟨"dbo", "t", none, none, none, none⟩ "sa" ⟨0, []⟩ []).2.1
      [⟨0, none, "m", HistoryType.SCHEMA, "s", none, "sa", 0, 0, true⟩]
      ⟨0, none, "m", HistoryType.SCHEMA, "s", none, "sa", 0, 0, true⟩
      (by decide),
    (C9_installed_rank_monotone (fun (n : Nat) _ => some (n + 1)) []
      ⟨"dbo", "t", none, none, none, none⟩ "sa" ⟨0, []⟩
      [⟨MigrationType.versioned, some "1", "ok", "V1__ok.sql",
        "V1__ok.sql", "SELECT 1", 1⟩]).2.2.2.2 List.Pairwise.nil⟩

end Skyway
